import Mathlib

/-!
Verification of the binary trie dictionary compiler
(`scripts/compile_binary_dictionaries.py`).

The script turns a word/frequency table into a flat array of fixed
10-byte trie node records (2-byte char, 1-byte freq, 3-byte first-child
offset, 3-byte next-sibling offset, 1 padding byte), laid out in
breadth-first order with offsets assigned at dequeue time.

Shallow embedding conventions:
* A character is its code point (`Nat`); a word is a `List Nat`;
  a word table (the Python `Dict[str, int]`, which preserves insertion
  order and has unique keys) is an insertion-ordered association list
  `List (Word × Int)`.
* The Python `TrieNode.children` dict maps a character `ch` to a child
  node whose `char` field is always `ch` (it is only ever populated by
  `children.setdefault(ch, TrieNode(ch, node))`), so it is embedded as
  an insertion-ordered `List TrieNode` looked up by the `char` field.
* `struct.pack` range failures, the `ValueError`s raised by the script
  and the `IndexError` of `parts[0]` become an explicit error type.
* File writes become an accumulating byte list; on an exception the
  bytes already written (and flushed when the `with` block closes the
  file) are carried in the error value.
* The breadth-first loop of `build_trie` assigns `node.offset` at
  dequeue time (10 bytes per node, dequeue index = enqueue index for a
  FIFO queue), and `write_bin` runs only after the whole traversal has
  finished, so the offsets stored in the emitted records below are the
  final offsets of the referenced nodes.  The queue carries, next to
  each pending node, the next-sibling offset that `build_trie` assigned
  to it when its parent was dequeued (`None` for the root and for last
  children).  `bfsEnc` takes an explicit fuel argument bounding the
  number of dequeues; `build_trie` passes fuel that provably exceeds
  the node count, so the fuel-exhaustion branch is unreachable.
-/

/-- Python word: the list of code points of the string. -/
abbrev Word := List Nat

/-- The Python ordered mapping from word to frequency. -/
abbrev WordTable := List (Word × Int)

/-- `NODE_SIZE = 10` from the script. -/
def NODE_SIZE : Nat := 10

/-- `MAX_OFFSET = 0xFFFFFF` from the script (3-byte unsigned). -/
def MAX_OFFSET : Nat := 0xFFFFFF

/-- The exceptions the script can raise, by raise site. -/
inductive PyErr where
  /-- `ValueError("Trie exceeds 16MB limit")` in `build_trie` (also used
  for the unreachable fuel-exhaustion branch of the embedding). -/
  | capacity : PyErr
  /-- `struct.error` from `struct.pack(">H", c)` with `c` out of range. -/
  | structRangeH (c : Nat) : PyErr
  /-- `struct.error` from `struct.pack(">B", f)` with `f` out of range. -/
  | structRangeB (f : Int) : PyErr
  /-- `ValueError(f"Value {v} exceeds 3-byte limit")` in `_uint24`. -/
  | valueError24 (v : Int) : PyErr
  /-- `IndexError` from `parts[0]` on an empty token list in `parse_words`. -/
  | indexError : PyErr
deriving DecidableEq, Repr

/-- The in-memory trie node: `char`, `freq` and the insertion-ordered
children dict (see module docstring for why the dict keys are elided). -/
inductive TrieNode where
  | mk (char : Nat) (freq : Int) (children : List TrieNode) : TrieNode

/-- `node.char`. -/
def TrieNode.char : TrieNode → Nat
  | .mk c _ _ => c

/-- `node.freq`. -/
def TrieNode.freq : TrieNode → Int
  | .mk _ f _ => f

/-- `node.children` (insertion-ordered values of the Python dict). -/
def TrieNode.children : TrieNode → List TrieNode
  | .mk _ _ cs => cs

/-- `children.setdefault(ch, TrieNode(ch, node))` followed by applying the
continuation `k` (the rest of the insertion walk) to the found (or
freshly appended) child: the dict is updated in place at key `ch` if
present, else the fresh node `dflt = TrieNode(ch, node)` is appended at
the end (Python dicts append new keys in insertion order). -/
def updChild (k : TrieNode → TrieNode) (dflt : TrieNode) (ch : Nat) :
    List TrieNode → List TrieNode
  | [] => [k dflt]
  | t :: ts => if t.char = ch then k t :: ts else t :: updChild k dflt ch ts

/-- Word insertion walk of `build_trie`:
`for ch in word: node = node.children.setdefault(ch, TrieNode(ch, node))`
followed by `node.freq = freq` at the end of the walk. -/
def insertPath : TrieNode → Word → Int → TrieNode
  | .mk c _ cs, [], freq => .mk c freq cs
  | .mk c f cs, ch :: rest, freq =>
    .mk c f (updChild (fun sub => insertPath sub rest freq) (.mk ch 0 []) ch cs)

/-- The `for word, freq in words.items()` insertion loop of `build_trie`,
starting from `root = TrieNode("^")` (`ord '^' = 94`). -/
def buildRootNode (words : WordTable) : TrieNode :=
  words.foldl (fun t p => insertPath t p.1 p.2) (.mk 94 0 [])

/-- The ordering `sorted(...)` uses: ascending `char`. -/
def childLE (a b : TrieNode) : Prop := a.char ≤ b.char

instance : DecidableRel childLE := fun a b => Nat.decLe a.char b.char

instance : IsTotal TrieNode childLE := ⟨fun a b => Nat.le_total a.char b.char⟩

instance : IsTrans TrieNode childLE := ⟨fun _ _ _ => Nat.le_trans⟩

/-- `sorted(node.children.values(), key=lambda n: n.char)`.  (The Python
sort is stable, but the dict keys — the `char` fields — of a children
dict are unique, so any correct sort by `char` produces the same list;
we use insertion sort.) -/
def sortChildren (cs : List TrieNode) : List TrieNode :=
  List.insertionSort childLE cs

mutual
/-- Number of nodes of a trie (root included). -/
def tsize : TrieNode → Nat
  | .mk _ _ cs => 1 + tsizeL cs

/-- Total node count of a list of tries. -/
def tsizeL : List TrieNode → Nat
  | [] => 0
  | t :: ts => tsize t + tsizeL ts
end

/-- A node of the list returned by `build_trie`, with the fields
`write_bin` reads: `char`, `freq`, the assigned `offset`, and the final
offsets of `first_child` / `next_sibling` (`none` for Python `None`). -/
structure LocNode where
  char : Nat
  freq : Int
  offset : Int
  first_child : Option Int
  next_sibling : Option Int
deriving DecidableEq, Repr

/-- Queue entries for the children of a dequeued node: child `j` of `k`
sorted children, first child sitting at dequeue index `idx`, is linked
to its right neighbour at offset `10 * (idx + j + 1)`; the loop
`for left, right in zip(children, children[1:])` leaves the last
child's `next_sibling` as `None`. -/
def mkEntries : List TrieNode → Nat → List (TrieNode × Option Int)
  | [], _ => []
  | [t], _ => [(t, none)]
  | t :: t' :: ts, idx =>
    (t, some ((NODE_SIZE * (idx + 1) : Nat) : Int)) :: mkEntries (t' :: ts) (idx + 1)

/-- The breadth-first layout loop of `build_trie`.  `d` is the number of
nodes dequeued so far (so `current_offset = 10 * d`), `enq` the number
of nodes ever enqueued (so a child enqueued now is dequeued with index
`enq`, i.e. at offset `10 * enq`).  Fuel bounds the number of dequeues
(see `build_trie`). -/
def bfsEnc : Nat → List (TrieNode × Option Int) → Nat → Nat →
    Except PyErr (List (TrieNode × LocNode))
  | _, [], _, _ => .ok []
  | 0, _ :: _, _, _ => .error .capacity
  | fuel + 1, (t, sib) :: rest, d, enq =>
    if MAX_OFFSET < NODE_SIZE * d then .error .capacity
    else
      let cs := sortChildren t.children
      let fc : Option Int :=
        if cs.length = 0 then none else some ((NODE_SIZE * enq : Nat) : Int)
      match bfsEnc fuel (rest ++ mkEntries cs enq) (d + 1) (enq + cs.length) with
      | .error e => .error e
      | .ok out =>
        .ok ((t, ⟨t.char, t.freq, ((NODE_SIZE * d : Nat) : Int), fc, sib⟩) :: out)

/-- Fuel passed to `bfsEnc`: one more than the total character count of
the table, an upper bound for the node count of the built trie. -/
def wordFuel (words : WordTable) : Nat :=
  1 + (words.map (fun p => p.1.length)).sum

/-- `build_trie`: insertion loop, then the breadth-first layout of the
whole trie starting from the root (enqueued first: `deque([root])`,
`current_offset = 0`, one node — the root — already enqueued). -/
def build_trie (words : WordTable) : Except PyErr (List (TrieNode × LocNode)) :=
  bfsEnc (wordFuel words) [(buildRootNode words, none)] 0 1

/-- `struct.pack(">H", c)`: 2 bytes big-endian, fails out of `[0, 0xFFFF]`
(`c` comes from `ord`, hence is a natural number). -/
def packH (c : Nat) : Except PyErr (List Nat) :=
  if 65535 < c then .error (.structRangeH c) else .ok [c / 256, c % 256]

/-- `struct.pack(">B", f)`: 1 byte, fails out of `[0, 255]`. -/
def packB (f : Int) : Except PyErr (List Nat) :=
  if f < 0 ∨ 255 < f then .error (.structRangeB f) else .ok [f.toNat]

/-- `_uint24`: raises `ValueError` outside `[0, MAX_OFFSET]`, else the
3 big-endian bytes `[(v >> 16) & 0xFF, (v >> 8) & 0xFF, v & 0xFF]`. -/
def _uint24 (v : Int) : Except PyErr (List Nat) :=
  if v < 0 ∨ (MAX_OFFSET : Int) < v then .error (.valueError24 v)
  else .ok [v.toNat / 65536 % 256, v.toNat / 256 % 256, v.toNat % 256]

/-- `write_bin`: per node write char, freq, first-child offset (0 when
`first_child` is `None`), next-sibling offset (0 when `None`), and one
padding byte.  `acc` is the content of the output file so far; when a
pack raises, the bytes already written are flushed as the file is
closed, so the error carries them. -/
def write_bin : List LocNode → List Nat → Except (PyErr × List Nat) (List Nat)
  | [], acc => .ok acc
  | n :: ns, acc =>
    match packH n.char with
    | .error e => .error (e, acc)
    | .ok b1 =>
      match packB n.freq with
      | .error e => .error (e, acc ++ b1)
      | .ok b2 =>
        match _uint24 (n.first_child.getD 0) with
        | .error e => .error (e, acc ++ b1 ++ b2)
        | .ok b3 =>
          match _uint24 (n.next_sibling.getD 0) with
          | .error e => .error (e, acc ++ b1 ++ b2 ++ b3)
          | .ok b4 => write_bin ns (acc ++ b1 ++ b2 ++ b3 ++ b4 ++ [0])

/-- The per-table pipeline of `compile_language`: `build_trie` then
`write_bin` into a fresh file. -/
def compileTable (words : WordTable) : Except PyErr (List Nat) :=
  match build_trie words with
  | .error e => .error e
  | .ok ns =>
    match write_bin (ns.map Prod.snd) [] with
    | .error (e, _) => .error e
    | .ok bs => .ok bs

/-! ### The word list parser (`parse_words`)

A text file is a list of lines, each line the list of code points of
its text (line terminators already removed by Python's line iteration
and irrelevant anyway, since `strip` drops them).  Whitespace and digit
classification is modelled for ASCII input (Python's `strip`, `split`
and `isdigit` additionally accept some non-ASCII characters; no claim
depends on those). -/

/-- ASCII whitespace, as stripped by `str.strip()` / split by `str.split()`. -/
def isPySpace (c : Nat) : Bool := c = 32 || (9 ≤ c && c ≤ 13)

/-- `line = raw.strip()`. -/
def pyStrip (l : List Nat) : List Nat :=
  ((l.dropWhile isPySpace).reverse.dropWhile isPySpace).reverse

/-- `line.replace("\t", " ").replace(",", " ")` on one character. -/
def replSep (c : Nat) : Nat := if c = 9 || c = 44 then 32 else c

/-- Helper of `pySplit`: accumulates the current (reversed) token. -/
def pySplitGo : List Nat → List Nat → List (List Nat)
  | [], acc => if acc = [] then [] else [acc.reverse]
  | c :: cs, acc =>
    if isPySpace c then
      if acc = [] then pySplitGo cs [] else acc.reverse :: pySplitGo cs []
    else pySplitGo cs (c :: acc)

/-- `s.split()`: split on whitespace runs, dropping empty tokens. -/
def pySplit (l : List Nat) : List (List Nat) := pySplitGo l []

/-- `parts[1].isdigit()` (ASCII model: nonempty, all in `'0'..'9'`). -/
def pyIsDigit (l : List Nat) : Bool :=
  !l.isEmpty && l.all (fun c => 48 ≤ c && c ≤ 57)

/-- `int(s)` for a string of ASCII digits. -/
def digitsVal (l : List Nat) : Nat :=
  l.foldl (fun a c => 10 * a + (c - 48)) 0

/-- `words[word] = v` on the insertion-ordered Python dict: overwrite in
place if the key is present, else append. -/
def dictInsert : List (Word × Int) → Word → Int → List (Word × Int)
  | [], w, v => [(w, v)]
  | (w', v') :: rest, w, v =>
    if w' = w then (w', v) :: rest else (w', v') :: dictInsert rest w v

/-- The line loop of `parse_words`.  `words` is the dict built so far and
`count` the number of accepted lines.  Python `break`s out as soon as
`count >= max_words` (subsequent lines are never looked at). -/
def parseLoop (maxWords : Nat) : List (List Nat) → List (Word × Int) → Nat →
    Except PyErr (List (Word × Int))
  | [], words, _ => .ok words
  | raw :: rest, words, count =>
    if maxWords ≤ count then .ok words
    else
      let line := pyStrip raw
      if line = [] || line.head? = some 35 then parseLoop maxWords rest words count
      else
        match pySplit (line.map replSep) with
        | [] => .error .indexError
        | word :: parts1 =>
          let freq : Int :=
            match parts1 with
            | p1 :: _ =>
              if pyIsDigit p1 then (digitsVal p1 : Int) else (1000 + count : Nat)
            | [] => (1000 + count : Nat)
          parseLoop maxWords rest (dictInsert words word (max 0 (min 255 freq)))
            (count + 1)

/-- `parse_words(path, max_words)` on the file's lines. -/
def parse_words (lines : List (List Nat)) (maxWords : Nat := 50000) :
    Except PyErr (List (Word × Int)) :=
  parseLoop maxWords lines [] 0

/-! ### Well-formedness predicates and the canonical form -/

/-- Every node of the trie has a 16-bit character and a frequency the
1-byte field can hold. -/
inductive TrieOK : TrieNode → Prop where
  | intro {c : Nat} {f : Int} {cs : List TrieNode} :
      c ≤ 65535 → 0 ≤ f → f ≤ 255 → (∀ t ∈ cs, TrieOK t) → TrieOK (.mk c f cs)

/-- Every node's frequency fits the 1-byte field (no char constraint:
used where a word contains a character beyond 16 bits). -/
inductive TrieFreqOK : TrieNode → Prop where
  | intro {c : Nat} {f : Int} {cs : List TrieNode} :
      0 ≤ f → f ≤ 255 → (∀ t ∈ cs, TrieFreqOK t) → TrieFreqOK (.mk c f cs)

/-- The children dict invariant: the `char` keys at every node are
pairwise distinct (Python dict keys are unique). -/
inductive WfT : TrieNode → Prop where
  | intro {c : Nat} {f : Int} {cs : List TrieNode} :
      (cs.map TrieNode.char).Nodup → (∀ t ∈ cs, WfT t) → WfT (.mk c f cs)

/-- Some node of the trie carries character `x`. -/
inductive HasChar : TrieNode → Nat → Prop where
  | here {c : Nat} {f : Int} {cs : List TrieNode} : HasChar (.mk c f cs) c
  | child {c x : Nat} {f : Int} {cs : List TrieNode} {t : TrieNode} :
      t ∈ cs → HasChar t x → HasChar (.mk c f cs) x

mutual
/-- Canonical form of a trie: children recursively canonicalized and
sorted by character.  Two tries built by inserting the same mapping in
different orders have the same canonical form, and the breadth-first
encoder only looks at tries through `sortChildren`, hence only at their
canonical form. -/
def canon : TrieNode → TrieNode
  | .mk c f cs => .mk c f (sortChildren (canonL cs))

/-- `canon` mapped over a list of tries. -/
def canonL : List TrieNode → List TrieNode
  | [] => []
  | t :: ts => canon t :: canonL ts
end

/-- Total node count of the tries sitting in a `bfsEnc` queue. -/
def tsizeQ (q : List (TrieNode × Option Int)) : Nat :=
  (q.map (fun e => tsize e.1)).sum

/-- The 3 bytes `_uint24` produces for an in-range value. -/
def u24bytes (v : Int) : List Nat :=
  [v.toNat / 65536 % 256, v.toNat / 256 % 256, v.toNat % 256]

/-- The 10-byte record `write_bin` emits for a node all of whose fields
are in range. -/
def encRec (n : LocNode) : List Nat :=
  [n.char / 256, n.char % 256, n.freq.toNat] ++ u24bytes (n.first_child.getD 0) ++
    u24bytes (n.next_sibling.getD 0) ++ [0]

/-- All four packed fields of a record are in range, so `write_bin`
emits its 10 bytes without raising. -/
def ValidRec (n : LocNode) : Prop :=
  n.char ≤ 65535 ∧ 0 ≤ n.freq ∧ n.freq ≤ 255 ∧
    0 ≤ n.first_child.getD 0 ∧ n.first_child.getD 0 ≤ (MAX_OFFSET : Int) ∧
    0 ≤ n.next_sibling.getD 0 ∧ n.next_sibling.getD 0 ≤ (MAX_OFFSET : Int)

/-! ### Concrete tables used by the witnesses -/

/-- The spec's worked example `{"cat": 50, "car": 30, "can": 10}`
(`c=99, a=97, t=116, r=114, n=110`), in dict insertion order. -/
def cat3 : WordTable := [([99,97,116], 50), ([99,97,114], 30), ([99,97,110], 10)]

/-- `cat3` populated in a different insertion order. -/
def cat3rev : WordTable := [([99,97,110], 10), ([99,97,114], 30), ([99,97,116], 50)]

/-- A table whose only word has a character outside the Basic
Multilingual Plane (`0x11111 = 69905 > 0xFFFF`). -/
def astralTable : WordTable := [([69905], 5)]

/-- A table containing the empty string as a key. -/
def emptyKeyTable : WordTable := [([], 7)]

/-- A single node record whose `first_child` offset exceeds `MAX_OFFSET`. -/
def badOffsetNode : LocNode := ⟨94, 0, 0, some 16777216, none⟩

deriving instance DecidableEq for Except

/-! ## Basic structure lemmas -/

@[simp] theorem TrieNode.char_mk (c : Nat) (f : Int) (cs : List TrieNode) :
    (TrieNode.mk c f cs).char = c := rfl

@[simp] theorem TrieNode.freq_mk (c : Nat) (f : Int) (cs : List TrieNode) :
    (TrieNode.mk c f cs).freq = f := rfl

@[simp] theorem TrieNode.children_mk (c : Nat) (f : Int) (cs : List TrieNode) :
    (TrieNode.mk c f cs).children = cs := rfl

theorem TrieNode.eta (t : TrieNode) : TrieNode.mk t.char t.freq t.children = t := by
  cases t <;> rfl

@[simp] theorem tsize_mk (c : Nat) (f : Int) (cs : List TrieNode) :
    tsize (.mk c f cs) = 1 + tsizeL cs := by
  rw [tsize]

@[simp] theorem tsizeL_nil : tsizeL [] = 0 := by rw [tsizeL]

@[simp] theorem tsizeL_cons (t : TrieNode) (ts : List TrieNode) :
    tsizeL (t :: ts) = tsize t + tsizeL ts := by rw [tsizeL]

theorem tsize_pos (t : TrieNode) : 1 ≤ tsize t := by
  cases t; simp

theorem tsizeL_eq_sum (ts : List TrieNode) : tsizeL ts = (ts.map tsize).sum := by
  induction ts with
  | nil => simp
  | cons t ts ih => simp [ih]

theorem tsizeL_append (ts₁ ts₂ : List TrieNode) :
    tsizeL (ts₁ ++ ts₂) = tsizeL ts₁ + tsizeL ts₂ := by
  simp [tsizeL_eq_sum]

theorem tsizeL_perm {ts₁ ts₂ : List TrieNode} (h : ts₁.Perm ts₂) :
    tsizeL ts₁ = tsizeL ts₂ := by
  rw [tsizeL_eq_sum, tsizeL_eq_sum]
  exact (h.map tsize).sum_eq

theorem sortChildren_perm (cs : List TrieNode) : (sortChildren cs).Perm cs :=
  List.perm_insertionSort childLE cs

theorem mem_sortChildren {t : TrieNode} {cs : List TrieNode} :
    t ∈ sortChildren cs ↔ t ∈ cs :=
  (sortChildren_perm cs).mem_iff

theorem sortChildren_length (cs : List TrieNode) :
    (sortChildren cs).length = cs.length :=
  (sortChildren_perm cs).length_eq

theorem tsizeL_sortChildren (cs : List TrieNode) :
    tsizeL (sortChildren cs) = tsizeL cs :=
  tsizeL_perm (sortChildren_perm cs)

theorem sortChildren_sorted (cs : List TrieNode) :
    List.Sorted childLE (sortChildren cs) :=
  List.sorted_insertionSort childLE cs

theorem sortChildren_of_sorted {cs : List TrieNode}
    (h : List.Sorted childLE cs) : sortChildren cs = cs :=
  h.insertionSort_eq

theorem mkEntries_map_fst (cs : List TrieNode) (i : Nat) :
    (mkEntries cs i).map Prod.fst = cs := by
  induction cs generalizing i with
  | nil => rfl
  | cons t ts ih =>
    cases ts with
    | nil => rfl
    | cons t' ts' => simpa [mkEntries] using ih i.succ

theorem mkEntries_length (cs : List TrieNode) (i : Nat) :
    (mkEntries cs i).length = cs.length := by
  have := congrArg List.length (mkEntries_map_fst cs i)
  simpa using this

theorem tsizeQ_mkEntries (cs : List TrieNode) (i : Nat) :
    tsizeQ (mkEntries cs i) = tsizeL cs := by
  unfold tsizeQ
  have h : (mkEntries cs i).map (fun e => tsize e.1) = cs.map tsize := by
    have := congrArg (List.map tsize) (mkEntries_map_fst cs i)
    simpa [List.map_map, Function.comp] using this
  rw [h, ← tsizeL_eq_sum]

theorem tsizeQ_append (q₁ q₂ : List (TrieNode × Option Int)) :
    tsizeQ (q₁ ++ q₂) = tsizeQ q₁ + tsizeQ q₂ := by
  simp [tsizeQ]

theorem tsizeQ_cons (e : TrieNode × Option Int) (q : List (TrieNode × Option Int)) :
    tsizeQ (e :: q) = tsize e.1 + tsizeQ q := by
  simp [tsizeQ]

theorem length_le_tsizeQ (q : List (TrieNode × Option Int)) :
    q.length ≤ tsizeQ q := by
  induction q with
  | nil => simp [tsizeQ]
  | cons e q ih =>
    rw [tsizeQ_cons]
    simp only [List.length_cons]
    have := tsize_pos e.1
    omega

/-! ## Insertion lemmas -/

theorem insertPath_char (t : TrieNode) (w : Word) (f : Int) :
    (insertPath t w f).char = t.char := by
  cases t <;> cases w <;> simp [insertPath]

theorem insertPath_freq_cons (t : TrieNode) (ch : Nat) (rest : Word) (f : Int) :
    (insertPath t (ch :: rest) f).freq = t.freq := by
  cases t; simp [insertPath]

theorem insertPath_freq_nil (t : TrieNode) (f : Int) :
    (insertPath t [] f).freq = f := by
  cases t; simp [insertPath]

theorem insertPath_children_nil (t : TrieNode) (f : Int) :
    (insertPath t [] f).children = t.children := by
  cases t; simp [insertPath]

theorem buildRootNode_char (ws : WordTable) : (buildRootNode ws).char = 94 := by
  suffices h : ∀ (l : List (Word × Int)) (t : TrieNode),
      (l.foldl (fun t p => insertPath t p.1 p.2) t).char = t.char by
    exact h ws _
  intro l
  induction l with
  | nil => intro t; rfl
  | cons p l ih =>
    intro t
    rw [List.foldl_cons, ih, insertPath_char]

/-- If no processed word is the empty string, the insertion loop never
touches the accumulator's root frequency. -/
theorem foldl_freq_of_no_empty (l : List (Word × Int)) (t : TrieNode)
    (h : ∀ p ∈ l, p.1 ≠ []) :
    (l.foldl (fun t p => insertPath t p.1 p.2) t).freq = t.freq := by
  induction l generalizing t with
  | nil => rfl
  | cons p l ih =>
    rw [List.foldl_cons]
    rw [ih _ (fun q hq => h q (List.mem_cons_of_mem p hq))]
    cases hw : p.1 with
    | nil => exact absurd hw (h p (List.mem_cons_self p l))
    | cons ch rest => rw [insertPath_freq_cons]

theorem buildRootNode_freq_of_no_empty (ws : WordTable)
    (h : ∀ p ∈ ws, p.1 ≠ []) : (buildRootNode ws).freq = 0 :=
  foldl_freq_of_no_empty ws _ h

/-- If the table has unique keys and contains the empty word with
frequency `f`, the insertion loop sets the root frequency to `f`. -/
theorem buildRootNode_freq_of_empty (ws : WordTable) (f : Int)
    (hnd : (ws.map Prod.fst).Nodup) (hmem : ([], f) ∈ ws) :
    (buildRootNode ws).freq = f := by
  suffices h : ∀ (l : List (Word × Int)) (t : TrieNode),
      (l.map Prod.fst).Nodup → ([], f) ∈ l →
      (l.foldl (fun t p => insertPath t p.1 p.2) t).freq = f by
    exact h ws _ hnd hmem
  intro l
  induction l with
  | nil => intro t _ hmem; exact absurd hmem (List.not_mem_nil _)
  | cons p l ih =>
    intro t hnd hmem
    rw [List.map_cons, List.nodup_cons] at hnd
    rw [List.foldl_cons]
    rcases List.mem_cons.1 hmem with heq | hmem'
    · subst heq
      have hnotin : ∀ q ∈ l, q.1 ≠ [] := by
        intro q hq hq1
        have hm : q.1 ∈ l.map Prod.fst := List.mem_map_of_mem Prod.fst hq
        rw [hq1] at hm
        exact hnd.1 hm
      rw [foldl_freq_of_no_empty l _ hnotin, insertPath_freq_nil]
    · exact ih _ hnd.2 hmem'

/-! ## `updChild` membership and key lemmas -/

theorem updChild_mem {k : TrieNode → TrieNode} {d : TrieNode} {ch : Nat}
    {ts : List TrieNode} {x : TrieNode} (hx : x ∈ updChild k d ch ts) :
    x ∈ ts ∨ ∃ y, (y ∈ ts ∨ y = d) ∧ x = k y := by
  induction ts with
  | nil =>
    simp only [updChild, List.mem_singleton] at hx
    exact Or.inr ⟨d, Or.inr rfl, hx⟩
  | cons t ts ih =>
    by_cases hc : t.char = ch
    · simp only [updChild, if_pos hc, List.mem_cons] at hx
      rcases hx with hx | hx
      · exact Or.inr ⟨t, Or.inl (List.mem_cons_self t ts), hx⟩
      · exact Or.inl (List.mem_cons_of_mem t hx)
    · simp only [updChild, if_neg hc, List.mem_cons] at hx
      rcases hx with hx | hx
      · exact Or.inl (hx ▸ List.mem_cons_self t ts)
      · rcases ih hx with h | ⟨y, hy, hxy⟩
        · exact Or.inl (List.mem_cons_of_mem t h)
        · exact Or.inr ⟨y, hy.imp_left (List.mem_cons_of_mem t), hxy⟩

theorem updChild_map_char {k : TrieNode → TrieNode} {d : TrieNode} {ch : Nat}
    (ts : List TrieNode) (hk : ∀ x, (k x).char = x.char) (hd : d.char = ch) :
    (updChild k d ch ts).map TrieNode.char =
      if ch ∈ ts.map TrieNode.char then ts.map TrieNode.char
      else ts.map TrieNode.char ++ [ch] := by
  induction ts with
  | nil => simp [updChild, hk, hd]
  | cons t ts ih =>
    by_cases hc : t.char = ch
    · simp [updChild, if_pos hc, hk, hc]
    · simp only [updChild, if_neg hc, List.map_cons, ih]
      have hne : (ch ∈ t.char :: ts.map TrieNode.char) ↔ ch ∈ ts.map TrieNode.char := by
        simp only [List.mem_cons]
        constructor
        · rintro (h | h)
          · exact absurd h.symm hc
          · exact h
        · exact Or.inr
      by_cases hmem : ch ∈ ts.map TrieNode.char
      · rw [if_pos hmem, if_pos (hne.2 hmem)]
      · rw [if_neg hmem, if_neg (fun h => hmem (hne.1 h)), List.cons_append]

theorem updChild_chars_nodup {k : TrieNode → TrieNode} {d : TrieNode} {ch : Nat}
    {ts : List TrieNode} (hk : ∀ x, (k x).char = x.char) (hd : d.char = ch)
    (h : (ts.map TrieNode.char).Nodup) :
    ((updChild k d ch ts).map TrieNode.char).Nodup := by
  rw [updChild_map_char ts hk hd]
  by_cases hmem : ch ∈ ts.map TrieNode.char
  · simpa [hmem] using h
  · rw [if_neg hmem]
    refine List.Nodup.append h (List.nodup_singleton ch) ?_
    intro a ha hb
    rw [List.mem_singleton] at hb
    exact hmem (hb ▸ ha)

theorem updChild_mem_cases {k : TrieNode → TrieNode} {d : TrieNode}
    {ts : List TrieNode} {t' : TrieNode} (ch : Nat) (h : t' ∈ ts) :
    t' ∈ updChild k d ch ts ∨ k t' ∈ updChild k d ch ts := by
  induction ts with
  | nil => exact absurd h (List.not_mem_nil t')
  | cons t ts ih =>
    by_cases hc : t.char = ch
    · simp only [updChild, if_pos hc, List.mem_cons]
      rcases List.mem_cons.1 h with rfl | h'
      · exact Or.inr (Or.inl rfl)
      · exact Or.inl (Or.inr h')
    · simp only [updChild, if_neg hc, List.mem_cons]
      rcases List.mem_cons.1 h with rfl | h'
      · exact Or.inl (Or.inl rfl)
      · rcases ih h' with h'' | h''
        · exact Or.inl (Or.inr h'')
        · exact Or.inr (Or.inr h'')

theorem updChild_exists_k {k : TrieNode → TrieNode} {d : TrieNode}
    (ch : Nat) (ts : List TrieNode) :
    ∃ y, ((y ∈ ts ∧ y.char = ch) ∨ y = d) ∧ k y ∈ updChild k d ch ts := by
  induction ts with
  | nil => exact ⟨d, Or.inr rfl, by simp [updChild]⟩
  | cons t ts ih =>
    by_cases hc : t.char = ch
    · exact ⟨t, Or.inl ⟨List.mem_cons_self t ts, hc⟩, by simp [updChild, if_pos hc]⟩
    · rcases ih with ⟨y, hy, hmem⟩
      refine ⟨y, hy.imp_left (fun h => ⟨List.mem_cons_of_mem t h.1, h.2⟩), ?_⟩
      simp only [updChild, if_neg hc, List.mem_cons]
      exact Or.inr hmem

/-! ## Preservation of the node invariants under insertion -/

theorem TrieOK.char_le {t : TrieNode} (h : TrieOK t) : t.char ≤ 65535 := by
  cases h; simpa

theorem TrieOK.freq_lb {t : TrieNode} (h : TrieOK t) : 0 ≤ t.freq := by
  cases h; simpa

theorem TrieOK.freq_ub {t : TrieNode} (h : TrieOK t) : t.freq ≤ 255 := by
  cases h; simpa

theorem TrieOK.childOK {t t' : TrieNode} (h : TrieOK t)
    (h' : t' ∈ t.children) : TrieOK t' := by
  cases h with
  | intro _ _ _ hcs => exact hcs t' h'

theorem WfT.chars_nodup {t : TrieNode} (h : WfT t) :
    (t.children.map TrieNode.char).Nodup := by
  cases h with
  | intro hnd _ => exact hnd

theorem WfT.childWf {t t' : TrieNode} (h : WfT t)
    (h' : t' ∈ t.children) : WfT t' := by
  cases h with
  | intro _ hcs => exact hcs t' h'

theorem insertPath_TrieOK {t : TrieNode} {w : Word} {f : Int}
    (ht : TrieOK t) (hw : ∀ c ∈ w, c ≤ 65535) (hf0 : 0 ≤ f) (hf1 : f ≤ 255) :
    TrieOK (insertPath t w f) := by
  induction w generalizing t with
  | nil =>
    cases t with
    | mk c fr cs =>
      cases ht with
      | intro hc _ _ hcs => exact TrieOK.intro hc hf0 hf1 hcs
  | cons ch rest ih =>
    cases t with
    | mk c fr cs =>
      cases ht with
      | intro hc hfr0 hfr1 hcs =>
        refine TrieOK.intro hc hfr0 hfr1 ?_
        intro x hx
        rcases updChild_mem hx with hx' | ⟨y, hy, rfl⟩
        · exact hcs x hx'
        · have hrest : ∀ c ∈ rest, c ≤ 65535 :=
            fun c hc' => hw c (List.mem_cons_of_mem ch hc')
          rcases hy with hy | rfl
          · exact ih (hcs y hy) hrest
          · refine ih (TrieOK.intro ?_ le_rfl (by norm_num) ?_) hrest
            · exact hw ch (List.mem_cons_self ch rest)
            · intro x hx'
              exact absurd hx' (List.not_mem_nil x)

theorem insertPath_WfT {t : TrieNode} {w : Word} {f : Int} (ht : WfT t) :
    WfT (insertPath t w f) := by
  induction w generalizing t with
  | nil =>
    cases t with
    | mk c fr cs =>
      cases ht with
      | intro hnd hcs => exact WfT.intro hnd hcs
  | cons ch rest ih =>
    cases t with
    | mk c fr cs =>
      cases ht with
      | intro hnd hcs =>
        refine WfT.intro ?_ ?_
        · exact updChild_chars_nodup (fun x => insertPath_char x rest f) rfl hnd
        · intro x hx
          rcases updChild_mem hx with hx' | ⟨y, hy, rfl⟩
          · exact hcs x hx'
          · rcases hy with hy | rfl
            · exact ih (hcs y hy)
            · exact ih (WfT.intro (by simp) (fun x hx' => absurd hx' (List.not_mem_nil x)))

theorem buildRootNode_TrieOK (ws : WordTable)
    (h : ∀ p ∈ ws, (∀ c ∈ p.1, c ≤ 65535) ∧ 0 ≤ p.2 ∧ p.2 ≤ 255) :
    TrieOK (buildRootNode ws) := by
  suffices hgen : ∀ (l : List (Word × Int)) (t : TrieNode), TrieOK t →
      (∀ p ∈ l, (∀ c ∈ p.1, c ≤ 65535) ∧ 0 ≤ p.2 ∧ p.2 ≤ 255) →
      TrieOK (l.foldl (fun t p => insertPath t p.1 p.2) t) by
    refine hgen ws _ ?_ h
    exact TrieOK.intro (by norm_num) le_rfl (by norm_num)
      (fun x hx => absurd hx (List.not_mem_nil x))
  intro l
  induction l with
  | nil => intro t ht _; exact ht
  | cons p l ih =>
    intro t ht hl
    rw [List.foldl_cons]
    have hp := hl p (List.mem_cons_self p l)
    exact ih _ (insertPath_TrieOK ht hp.1 hp.2.1 hp.2.2)
      (fun q hq => hl q (List.mem_cons_of_mem p hq))

theorem buildRootNode_WfT (ws : WordTable) : WfT (buildRootNode ws) := by
  suffices hgen : ∀ (l : List (Word × Int)) (t : TrieNode), WfT t →
      WfT (l.foldl (fun t p => insertPath t p.1 p.2) t) by
    exact hgen ws _ (WfT.intro (by simp) (fun x hx => absurd hx (List.not_mem_nil x)))
  intro l
  induction l with
  | nil => intro t ht; exact ht
  | cons p l ih =>
    intro t ht
    rw [List.foldl_cons]
    exact ih _ (insertPath_WfT ht)

/-! ## Size bounds: insertion adds at most one node per character -/

theorem tsizeL_updChild {k : TrieNode → TrieNode} {d : TrieNode}
    {m : Nat} (ch : Nat) (ts : List TrieNode) (hk : ∀ x, tsize (k x) ≤ tsize x + m)
    (hkd : tsize (k d) ≤ 1 + m) :
    tsizeL (updChild k d ch ts) ≤ tsizeL ts + 1 + m := by
  induction ts with
  | nil => simp only [updChild, tsizeL_cons, tsizeL_nil]; omega
  | cons t ts ih =>
    by_cases hc : t.char = ch
    · simp only [updChild, if_pos hc, tsizeL_cons]
      have := hk t
      omega
    · simp only [updChild, if_neg hc, tsizeL_cons]
      omega

theorem insertPath_tsize (w : Word) (t : TrieNode) (f : Int) :
    tsize (insertPath t w f) ≤ tsize t + w.length := by
  induction w generalizing t with
  | nil => cases t; simp [insertPath]
  | cons ch rest ih =>
    cases t with
    | mk c fr cs =>
      simp only [insertPath, tsize_mk, List.length_cons]
      have hupd := tsizeL_updChild (k := fun sub => insertPath sub rest f)
        (d := .mk ch 0 []) (m := rest.length) ch cs
        (fun x => ih x) (by simpa using ih (.mk ch 0 []))
      omega

theorem tsize_buildRootNode_le (ws : WordTable) :
    tsize (buildRootNode ws) ≤ wordFuel ws := by
  suffices hgen : ∀ (l : List (Word × Int)) (t : TrieNode),
      tsize (l.foldl (fun t p => insertPath t p.1 p.2) t) ≤
        tsize t + (l.map (fun p => p.1.length)).sum by
    have := hgen ws (.mk 94 0 [])
    simpa [wordFuel, buildRootNode] using this
  intro l
  induction l with
  | nil => intro t; simp
  | cons p l ih =>
    intro t
    rw [List.foldl_cons]
    calc tsize (l.foldl (fun t p => insertPath t p.1 p.2) (insertPath t p.1 p.2))
        ≤ tsize (insertPath t p.1 p.2) + (l.map (fun p => p.1.length)).sum := ih _
      _ ≤ tsize t + p.1.length + (l.map (fun p => p.1.length)).sum := by
          have := insertPath_tsize p.1 t p.2; omega
      _ = tsize t + ((p :: l).map (fun p => p.1.length)).sum := by
          simp [List.map_cons]; ring

/-! ## Character membership in the built trie -/

theorem insertPath_hasChar_of_mem {w : Word} {c : Nat} (hc : c ∈ w)
    (t : TrieNode) (f : Int) : HasChar (insertPath t w f) c := by
  induction w generalizing t with
  | nil => exact absurd hc (List.not_mem_nil c)
  | cons ch rest ih =>
    cases t with
    | mk c0 f0 cs =>
      simp only [insertPath]
      rcases List.mem_cons.1 hc with rfl | hc'
      · rcases updChild_exists_k (k := fun sub => insertPath sub rest f)
          (d := .mk c 0 []) c cs with ⟨y, hy, hmem⟩
        have hchar : (insertPath y rest f).char = c := by
          rw [insertPath_char]
          rcases hy with ⟨_, hyc⟩ | rfl
          · exact hyc
          · rfl
        refine HasChar.child hmem ?_
        cases hky : insertPath y rest f with
        | mk c' f' cs' =>
          have : c' = c := by simpa [hky] using hchar
          exact this ▸ HasChar.here
      · rcases updChild_exists_k (k := fun sub => insertPath sub rest f)
          (d := .mk ch 0 []) ch cs with ⟨y, _, hmem⟩
        exact HasChar.child hmem (ih hc' y)

theorem insertPath_hasChar_mono {t : TrieNode} {x : Nat} (h : HasChar t x)
    (w : Word) (f : Int) : HasChar (insertPath t w f) x := by
  induction w generalizing t with
  | nil =>
    cases t with
    | mk c0 f0 cs =>
      cases h with
      | here => exact HasChar.here
      | child hmem hx => exact HasChar.child hmem hx
  | cons ch rest ih =>
    cases t with
    | mk c0 f0 cs =>
      simp only [insertPath]
      cases h with
      | here => exact HasChar.here
      | child hmem hx =>
        rcases updChild_mem_cases (k := fun sub => insertPath sub rest f)
          (d := .mk ch 0 []) ch hmem with h' | h'
        · exact HasChar.child h' hx
        · exact HasChar.child h' (ih hx)

theorem buildRootNode_hasChar {ws : WordTable} {w : Word} {f : Int} {c : Nat}
    (hmem : (w, f) ∈ ws) (hc : c ∈ w) : HasChar (buildRootNode ws) c := by
  suffices hgen : ∀ (l : List (Word × Int)) (t : TrieNode),
      (w, f) ∈ l → HasChar (l.foldl (fun t p => insertPath t p.1 p.2) t) c by
    exact hgen ws _ hmem
  have hmono : ∀ (l : List (Word × Int)) (t : TrieNode), HasChar t c →
      HasChar (l.foldl (fun t p => insertPath t p.1 p.2) t) c := by
    intro l
    induction l with
    | nil => intro t h; exact h
    | cons p l ih =>
      intro t h
      rw [List.foldl_cons]
      exact ih _ (insertPath_hasChar_mono h p.1 p.2)
  intro l
  induction l with
  | nil => intro t h; exact absurd h (List.not_mem_nil _)
  | cons p l ih =>
    intro t h
    rw [List.foldl_cons]
    rcases List.mem_cons.1 h with heq | h'
    · exact hmono l _ (by rw [← heq]; exact insertPath_hasChar_of_mem hc t f)
    · exact ih _ h'

/-! ## `write_bin`: success shape, validity inversion, failure shapes -/

theorem packH_ok {c : Nat} (h : c ≤ 65535) : packH c = .ok [c / 256, c % 256] := by
  simp [packH, Nat.not_lt.2 h]

theorem packB_ok {f : Int} (h0 : 0 ≤ f) (h1 : f ≤ 255) : packB f = .ok [f.toNat] := by
  have : ¬(f < 0 ∨ 255 < f) := by omega
  simp [packB, this]

theorem uint24_ok {v : Int} (h0 : 0 ≤ v) (h1 : v ≤ (MAX_OFFSET : Int)) :
    _uint24 v = .ok (u24bytes v) := by
  have : ¬(v < 0 ∨ (MAX_OFFSET : Int) < v) := by omega
  simp [_uint24, u24bytes, this]

theorem encRec_length (n : LocNode) : (encRec n).length = 10 := by
  simp [encRec, u24bytes]

theorem encJoin_length (ns : List LocNode) :
    ((ns.map encRec).flatten).length = 10 * ns.length := by
  induction ns with
  | nil => simp
  | cons n ns ih =>
    simp only [List.map_cons, List.flatten_cons, List.length_append, ih,
      encRec_length, List.length_cons]
    ring

theorem write_bin_of_valid {ns : List LocNode} (h : ∀ n ∈ ns, ValidRec n) :
    ∀ acc, write_bin ns acc = .ok (acc ++ (ns.map encRec).flatten) := by
  induction ns with
  | nil => intro acc; simp [write_bin]
  | cons n ns ih =>
    intro acc
    have hn := h n (List.mem_cons_self n ns)
    obtain ⟨h1, h2, h3, h4, h5, h6, h7⟩ := hn
    simp only [write_bin, packH_ok h1, packB_ok h2 h3, uint24_ok h4 h5, uint24_ok h6 h7]
    rw [ih (fun x hx => h x (List.mem_cons_of_mem n hx))]
    simp [encRec, List.append_assoc]

theorem write_bin_valid_of_ok :
    ∀ (ns : List LocNode) (acc bs : List Nat), write_bin ns acc = .ok bs →
      ∀ n ∈ ns, ValidRec n := by
  intro ns
  induction ns with
  | nil => intro acc bs _ n hn; exact absurd hn (List.not_mem_nil n)
  | cons n ns ih =>
    intro acc bs h x hx
    rw [write_bin] at h
    by_cases h1 : 65535 < n.char
    · simp [packH, h1] at h
    · rw [packH_ok (Nat.not_lt.1 h1)] at h
      by_cases h2 : n.freq < 0 ∨ 255 < n.freq
      · simp [packB, h2] at h
      · have h2' : 0 ≤ n.freq ∧ n.freq ≤ 255 := by omega
        rw [packB_ok h2'.1 h2'.2] at h
        by_cases h3 : n.first_child.getD 0 < 0 ∨ (MAX_OFFSET : Int) < n.first_child.getD 0
        · simp [_uint24, h3] at h
        · have h3' : 0 ≤ n.first_child.getD 0 ∧ n.first_child.getD 0 ≤ (MAX_OFFSET : Int) := by
            omega
          rw [uint24_ok h3'.1 h3'.2] at h
          by_cases h4 : n.next_sibling.getD 0 < 0 ∨ (MAX_OFFSET : Int) < n.next_sibling.getD 0
          · simp [_uint24, h4] at h
          · have h4' : 0 ≤ n.next_sibling.getD 0 ∧
                n.next_sibling.getD 0 ≤ (MAX_OFFSET : Int) := by omega
            rw [uint24_ok h4'.1 h4'.2] at h
            simp only at h
            rcases List.mem_cons.1 hx with rfl | hx'
            · exact ⟨Nat.not_lt.1 h1, h2'.1, h2'.2, h3'.1, h3'.2, h4'.1, h4'.2⟩
            · exact ih _ _ h x hx'

theorem write_bin_ok_length {ns : List LocNode} {acc bs : List Nat}
    (h : write_bin ns acc = .ok bs) : bs.length = acc.length + 10 * ns.length := by
  have hv := write_bin_valid_of_ok ns acc bs h
  rw [write_bin_of_valid hv acc] at h
  cases h
  rw [List.length_append, encJoin_length]

/-- `write_bin` on a list whose first invalid record has an out-of-range
character: the `struct.pack(">H", ...)` call raises before any byte of
that record is written; the file holds exactly the earlier records. -/
theorem write_bin_bad_char {pre : List LocNode} {r : LocNode}
    (post : List LocNode) (hpre : ∀ n ∈ pre, ValidRec n) (hbad : 65535 < r.char) :
    ∀ acc, write_bin (pre ++ r :: post) acc =
      .error (.structRangeH r.char, acc ++ (pre.map encRec).flatten) := by
  induction pre with
  | nil =>
    intro acc
    rw [List.nil_append, write_bin]
    simp [packH, hbad]
  | cons n pre ih =>
    intro acc
    have hn := hpre n (List.mem_cons_self n pre)
    obtain ⟨h1, h2, h3, h4, h5, h6, h7⟩ := hn
    rw [List.cons_append]
    simp only [write_bin, packH_ok h1, packB_ok h2 h3, uint24_ok h4 h5, uint24_ok h6 h7]
    rw [ih (fun x hx => hpre x (List.mem_cons_of_mem n hx))]
    simp [encRec, List.append_assoc]

/-- `write_bin` on a list whose first invalid record has an out-of-range
`first_child` offset: `_uint24` raises after the record's char and freq
bytes have already been written — the file ends with a truncated
record. -/
theorem write_bin_bad_fc {pre : List LocNode} {r : LocNode}
    (post : List LocNode) (hpre : ∀ n ∈ pre, ValidRec n)
    (hc : r.char ≤ 65535) (hf0 : 0 ≤ r.freq) (hf1 : r.freq ≤ 255)
    (hbad : r.first_child.getD 0 < 0 ∨ (MAX_OFFSET : Int) < r.first_child.getD 0) :
    ∀ acc, write_bin (pre ++ r :: post) acc =
      .error (.valueError24 (r.first_child.getD 0),
        acc ++ (pre.map encRec).flatten ++ [r.char / 256, r.char % 256, r.freq.toNat]) := by
  induction pre with
  | nil =>
    intro acc
    rw [List.nil_append]
    simp only [write_bin, packH_ok hc, packB_ok hf0 hf1]
    simp [_uint24, hbad, List.append_assoc]
  | cons n pre ih =>
    intro acc
    have hn := hpre n (List.mem_cons_self n pre)
    obtain ⟨h1, h2, h3, h4, h5, h6, h7⟩ := hn
    rw [List.cons_append]
    simp only [write_bin, packH_ok h1, packB_ok h2 h3, uint24_ok h4 h5, uint24_ok h6 h7]
    rw [ih (fun x hx => hpre x (List.mem_cons_of_mem n hx))]
    simp [encRec, List.append_assoc]

/-- Same for an out-of-range `next_sibling` offset: char, freq and
first-child bytes of the offending record are already in the file. -/
theorem write_bin_bad_sib {pre : List LocNode} {r : LocNode}
    (post : List LocNode) (hpre : ∀ n ∈ pre, ValidRec n)
    (hc : r.char ≤ 65535) (hf0 : 0 ≤ r.freq) (hf1 : r.freq ≤ 255)
    (hfc0 : 0 ≤ r.first_child.getD 0) (hfc1 : r.first_child.getD 0 ≤ (MAX_OFFSET : Int))
    (hbad : r.next_sibling.getD 0 < 0 ∨ (MAX_OFFSET : Int) < r.next_sibling.getD 0) :
    ∀ acc, write_bin (pre ++ r :: post) acc =
      .error (.valueError24 (r.next_sibling.getD 0),
        acc ++ (pre.map encRec).flatten ++ [r.char / 256, r.char % 256, r.freq.toNat] ++
          u24bytes (r.first_child.getD 0)) := by
  induction pre with
  | nil =>
    intro acc
    rw [List.nil_append]
    simp only [write_bin, packH_ok hc, packB_ok hf0 hf1, uint24_ok hfc0 hfc1]
    simp [_uint24, hbad, List.append_assoc]
  | cons n pre ih =>
    intro acc
    have hn := hpre n (List.mem_cons_self n pre)
    obtain ⟨h1, h2, h3, h4, h5, h6, h7⟩ := hn
    rw [List.cons_append]
    simp only [write_bin, packH_ok h1, packB_ok h2 h3, uint24_ok h4 h5, uint24_ok h6 h7]
    rw [ih (fun x hx => hpre x (List.mem_cons_of_mem n hx))]
    simp [encRec, List.append_assoc]

/-! ## Breadth-first layout: unfolding and bookkeeping -/

theorem bfsEnc_nil (fuel d enq : Nat) : bfsEnc fuel [] d enq = .ok [] := by
  cases fuel <;> rfl

theorem bfsEnc_cons (fuel : Nat) (t : TrieNode) (sib : Option Int)
    (rest : List (TrieNode × Option Int)) (d enq : Nat) :
    bfsEnc (fuel + 1) ((t, sib) :: rest) d enq =
      if MAX_OFFSET < NODE_SIZE * d then .error .capacity
      else
        match bfsEnc fuel (rest ++ mkEntries (sortChildren t.children) enq) (d + 1)
            (enq + (sortChildren t.children).length) with
        | .error e => .error e
        | .ok out =>
          .ok ((t, ⟨t.char, t.freq, ((NODE_SIZE * d : Nat) : Int),
            (if (sortChildren t.children).length = 0 then none
             else some ((NODE_SIZE * enq : Nat) : Int)), sib⟩) :: out) := rfl

theorem tsizeL_ge_length (cs : List TrieNode) : cs.length ≤ tsizeL cs := by
  induction cs with
  | nil => simp
  | cons t ts ih =>
    rw [tsizeL_cons]
    simp only [List.length_cons]
    have := tsize_pos t
    omega

/-- Dequeuing one node and enqueuing its children shrinks the queue's
total node count by exactly one. -/
theorem tsizeQ_step (t : TrieNode) (sib : Option Int)
    (rest : List (TrieNode × Option Int)) (enq : Nat) :
    tsizeQ (rest ++ mkEntries (sortChildren t.children) enq) + 1 =
      tsizeQ ((t, sib) :: rest) := by
  rw [tsizeQ_append, tsizeQ_mkEntries, tsizeL_sortChildren, tsizeQ_cons]
  cases t with
  | mk c f cs => simp; omega

theorem tsizeQ_pos {q : List (TrieNode × Option Int)} (h : q ≠ []) :
    1 ≤ tsizeQ q := by
  cases q with
  | nil => exact absurd rfl h
  | cons e q =>
    rw [tsizeQ_cons]
    have := tsize_pos e.1
    omega

theorem tsizeQ_head_children (t : TrieNode) (sib : Option Int)
    (rest : List (TrieNode × Option Int)) :
    rest.length + (sortChildren t.children).length + 1 ≤ tsizeQ ((t, sib) :: rest) := by
  rw [tsizeQ_cons]
  cases t with
  | mk c f cs =>
    simp only [TrieNode.children_mk]
    have h1 := tsizeL_ge_length cs
    have h2 := length_le_tsizeQ rest
    rw [sortChildren_length]
    simp only [tsize_mk]
    omega

/-- The `next_sibling` offsets `mkEntries` hands out: entry `j` (not the
last) points at dequeue index `i + j + 1`. -/
theorem mkEntries_sib (cs : List TrieNode) (i : Nat) :
    ∀ e ∈ mkEntries cs i, ∀ s : Int, e.2 = some s →
      ∃ j : Nat, s = ((NODE_SIZE * (i + j + 1) : Nat) : Int) ∧ j + 1 < cs.length := by
  induction cs generalizing i with
  | nil => intro e he; exact absurd he (List.not_mem_nil e)
  | cons t ts ih =>
    cases ts with
    | nil =>
      intro e he s hs
      simp only [mkEntries, List.mem_singleton] at he
      rw [he] at hs
      exact absurd hs (by simp)
    | cons t' ts' =>
      intro e he s hs
      simp only [mkEntries, List.mem_cons] at he
      rcases he with rfl | he'
      · simp only at hs
        cases hs
        exact ⟨0, rfl, by simp⟩
      · rcases ih (i + 1) e he' s hs with ⟨j, hj, hjlt⟩
        refine ⟨j + 1, ?_, ?_⟩
        · rw [hj]
          have harith : i + 1 + j + 1 = i + (j + 1) + 1 := by omega
          rw [harith]
        · simp only [List.length_cons] at hjlt ⊢
          omega

/-- The last queue entry `mkEntries` produces is the last sorted child,
carrying no next-sibling offset. -/
theorem mkEntries_getLast? (cs : List TrieNode) (i : Nat) (h : cs ≠ []) :
    ∃ tl, cs.getLast? = some tl ∧ (mkEntries cs i).getLast? = some (tl, none) := by
  induction cs generalizing i with
  | nil => exact absurd rfl h
  | cons t ts ih =>
    cases ts with
    | nil => exact ⟨t, rfl, rfl⟩
    | cons t' ts' =>
      rcases ih (i := i + 1) (by simp) with ⟨tl, h1, h2⟩
      refine ⟨tl, ?_, ?_⟩
      · rw [List.getLast?_cons_cons]; exact h1
      · rw [mkEntries]
        cases hL : mkEntries (t' :: ts') (i + 1) with
        | nil => rw [hL] at h2; simp at h2
        | cons y L' =>
          rw [hL] at h2
          rw [List.getLast?_cons_cons]
          exact h2

theorem bfsEnc_zero_cons (e : TrieNode × Option Int)
    (rest : List (TrieNode × Option Int)) (d enq : Nat) :
    bfsEnc 0 (e :: rest) d enq = .error .capacity := rfl

/-- Success of the breadth-first layout: with enough fuel, if the last
offset to be assigned (`10 * (d + N - 1)` for `N` nodes in the queue)
stays within `MAX_OFFSET`, the traversal completes. -/
theorem bfsEnc_ok_of_fits :
    ∀ (fuel : Nat) (q : List (TrieNode × Option Int)) (d enq : Nat),
      tsizeQ q ≤ fuel →
      NODE_SIZE * (d + tsizeQ q) ≤ MAX_OFFSET + NODE_SIZE →
      ∃ out, bfsEnc fuel q d enq = .ok out := by
  intro fuel
  induction fuel with
  | zero =>
    intro q d enq hf _
    cases q with
    | nil => exact ⟨[], bfsEnc_nil 0 d enq⟩
    | cons e rest =>
      have := tsizeQ_pos (q := e :: rest) (by simp)
      omega
  | succ fuel ih =>
    intro q d enq hf hcap
    cases q with
    | nil => exact ⟨[], bfsEnc_nil _ d enq⟩
    | cons e rest =>
      obtain ⟨t, sib⟩ := e
      rw [bfsEnc_cons]
      have hpos := tsizeQ_pos (q := (t, sib) :: rest) (by simp)
      have h1 : ¬(MAX_OFFSET < NODE_SIZE * d) := by
        simp only [NODE_SIZE] at hcap ⊢
        omega
      rw [if_neg h1]
      have hstep := tsizeQ_step t sib rest enq
      obtain ⟨out, hout⟩ := ih (rest ++ mkEntries (sortChildren t.children) enq)
        (d + 1) (enq + (sortChildren t.children).length)
        (by omega)
        (by simp only [NODE_SIZE] at hcap ⊢; omega)
      rw [hout]
      exact ⟨_, rfl⟩

/-- On success, the output lists one record per node in the queue's tries. -/
theorem bfsEnc_ok_length :
    ∀ (fuel : Nat) (q : List (TrieNode × Option Int)) (d enq : Nat)
      (out : List (TrieNode × LocNode)), bfsEnc fuel q d enq = .ok out →
      out.length = tsizeQ q := by
  intro fuel
  induction fuel with
  | zero =>
    intro q d enq out h
    cases q with
    | nil => rw [bfsEnc_nil] at h; cases h; simp [tsizeQ]
    | cons e rest => rw [bfsEnc_zero_cons] at h; simp at h
  | succ fuel ih =>
    intro q d enq out h
    cases q with
    | nil => rw [bfsEnc_nil] at h; cases h; simp [tsizeQ]
    | cons e rest =>
      obtain ⟨t, sib⟩ := e
      rw [bfsEnc_cons] at h
      by_cases h1 : MAX_OFFSET < NODE_SIZE * d
      · rw [if_pos h1] at h; simp at h
      · rw [if_neg h1] at h
        cases hrec : bfsEnc fuel (rest ++ mkEntries (sortChildren t.children) enq)
            (d + 1) (enq + (sortChildren t.children).length) with
        | error e' => rw [hrec] at h; simp at h
        | ok out' =>
          rw [hrec] at h
          simp only [Except.ok.injEq] at h
          subst h
          rw [List.length_cons, ih _ _ _ _ hrec, ← tsizeQ_step t sib rest enq]

/-- On success, the record at output position `i` carries offset
`10 * (d + i)`: offsets are assigned consecutively in dequeue order. -/
theorem bfsEnc_ok_offset :
    ∀ (fuel : Nat) (q : List (TrieNode × Option Int)) (d enq : Nat)
      (out : List (TrieNode × LocNode)), bfsEnc fuel q d enq = .ok out →
      ∀ i (hi : i < out.length),
        (out.get ⟨i, hi⟩).2.offset = ((NODE_SIZE * (d + i) : Nat) : Int) := by
  intro fuel
  induction fuel with
  | zero =>
    intro q d enq out h i hi
    cases q with
    | nil => rw [bfsEnc_nil] at h; cases h; simp at hi
    | cons e rest => rw [bfsEnc_zero_cons] at h; simp at h
  | succ fuel ih =>
    intro q d enq out h i hi
    cases q with
    | nil => rw [bfsEnc_nil] at h; cases h; simp at hi
    | cons e rest =>
      obtain ⟨t, sib⟩ := e
      rw [bfsEnc_cons] at h
      by_cases h1 : MAX_OFFSET < NODE_SIZE * d
      · rw [if_pos h1] at h; simp at h
      · rw [if_neg h1] at h
        cases hrec : bfsEnc fuel (rest ++ mkEntries (sortChildren t.children) enq)
            (d + 1) (enq + (sortChildren t.children).length) with
        | error e' => rw [hrec] at h; simp at h
        | ok out' =>
          rw [hrec] at h
          simp only [Except.ok.injEq] at h
          subst h
          cases i with
          | zero => simp
          | succ i =>
            simp only [List.get_cons_succ]
            have hi' : i < out'.length := by
              simp only [List.length_cons] at hi; omega
            have := ih _ _ _ _ hrec i hi'
            rw [this]
            norm_num
            congr 1
            omega

/-- On success, the `i`-th output pair (for `i` still inside the current
queue) is exactly the `i`-th queued node together with the
next-sibling offset recorded for it at enqueue time. -/
theorem bfsEnc_ok_qcorr :
    ∀ (fuel : Nat) (q : List (TrieNode × Option Int)) (d enq : Nat)
      (out : List (TrieNode × LocNode)), bfsEnc fuel q d enq = .ok out →
      ∀ i (hi : i < q.length), ∃ (hi' : i < out.length),
        (out.get ⟨i, hi'⟩).1 = (q.get ⟨i, hi⟩).1 ∧
        (out.get ⟨i, hi'⟩).2.next_sibling = (q.get ⟨i, hi⟩).2 := by
  intro fuel
  induction fuel with
  | zero =>
    intro q d enq out h i hi
    cases q with
    | nil => simp at hi
    | cons e rest => rw [bfsEnc_zero_cons] at h; simp at h
  | succ fuel ih =>
    intro q d enq out h i hi
    cases q with
    | nil => simp at hi
    | cons e rest =>
      obtain ⟨t, sib⟩ := e
      rw [bfsEnc_cons] at h
      by_cases h1 : MAX_OFFSET < NODE_SIZE * d
      · rw [if_pos h1] at h; simp at h
      · rw [if_neg h1] at h
        cases hrec : bfsEnc fuel (rest ++ mkEntries (sortChildren t.children) enq)
            (d + 1) (enq + (sortChildren t.children).length) with
        | error e' => rw [hrec] at h; simp at h
        | ok out' =>
          rw [hrec] at h
          simp only [Except.ok.injEq] at h
          subst h
          cases i with
          | zero => exact ⟨by simp, by simp, by simp⟩
          | succ i =>
            simp only [List.length_cons] at hi
            have hiq : i < rest.length := by omega
            have hiq' : i <
                (rest ++ mkEntries (sortChildren t.children) enq).length := by
              rw [List.length_append]; omega
            rcases ih _ _ _ _ hrec i hiq' with ⟨hi'', hfst, hsib⟩
            refine ⟨by simp only [List.length_cons]; omega, ?_, ?_⟩
            · simp only [List.get_cons_succ]
              rw [hfst]
              congr 1
              exact List.get_append_left rest _ hiq
            · simp only [List.get_cons_succ]
              rw [hsib]
              have heq : (rest ++ mkEntries (sortChildren t.children) enq).get ⟨i, hiq'⟩ =
                  rest.get ⟨i, hiq⟩ := List.get_append_left rest _ hiq
              rw [heq]

/-- On success, every emitted record copies its node's char and freq,
and its `first_child` field is `None` exactly for childless nodes. -/
theorem bfsEnc_ok_mem_rec :
    ∀ (fuel : Nat) (q : List (TrieNode × Option Int)) (d enq : Nat)
      (out : List (TrieNode × LocNode)), bfsEnc fuel q d enq = .ok out →
      ∀ pr ∈ out, pr.2.char = pr.1.char ∧ pr.2.freq = pr.1.freq ∧
        (pr.1.children = [] ↔ pr.2.first_child = none) := by
  intro fuel
  induction fuel with
  | zero =>
    intro q d enq out h pr hpr
    cases q with
    | nil => rw [bfsEnc_nil] at h; cases h; exact absurd hpr (List.not_mem_nil pr)
    | cons e rest => rw [bfsEnc_zero_cons] at h; simp at h
  | succ fuel ih =>
    intro q d enq out h pr hpr
    cases q with
    | nil => rw [bfsEnc_nil] at h; cases h; exact absurd hpr (List.not_mem_nil pr)
    | cons e rest =>
      obtain ⟨t, sib⟩ := e
      rw [bfsEnc_cons] at h
      by_cases h1 : MAX_OFFSET < NODE_SIZE * d
      · rw [if_pos h1] at h; simp at h
      · rw [if_neg h1] at h
        cases hrec : bfsEnc fuel (rest ++ mkEntries (sortChildren t.children) enq)
            (d + 1) (enq + (sortChildren t.children).length) with
        | error e' => rw [hrec] at h; simp at h
        | ok out' =>
          rw [hrec] at h
          simp only [Except.ok.injEq] at h
          subst h
          rcases List.mem_cons.1 hpr with rfl | hpr'
          · refine ⟨rfl, rfl, ?_⟩
            simp only
            constructor
            · intro hc
              rw [if_pos (by rw [sortChildren_length, hc]; rfl)]
            · intro hc
              by_cases hlen : (sortChildren t.children).length = 0
              · rw [sortChildren_length] at hlen
                exact List.length_eq_zero.1 hlen
              · rw [if_neg hlen] at hc
                exact absurd hc (by simp)
          · exact ih _ _ _ _ hrec pr hpr'

/-- On success, every output node is a node of one of the queued tries,
so node-level invariants propagate to the output. -/
theorem bfsEnc_ok_mem_ok :
    ∀ (fuel : Nat) (q : List (TrieNode × Option Int)) (d enq : Nat)
      (out : List (TrieNode × LocNode)), bfsEnc fuel q d enq = .ok out →
      (∀ e ∈ q, TrieOK e.1) → ∀ pr ∈ out, TrieOK pr.1 := by
  intro fuel
  induction fuel with
  | zero =>
    intro q d enq out h hq pr hpr
    cases q with
    | nil => rw [bfsEnc_nil] at h; cases h; exact absurd hpr (List.not_mem_nil pr)
    | cons e rest => rw [bfsEnc_zero_cons] at h; simp at h
  | succ fuel ih =>
    intro q d enq out h hq pr hpr
    cases q with
    | nil => rw [bfsEnc_nil] at h; cases h; exact absurd hpr (List.not_mem_nil pr)
    | cons e rest =>
      obtain ⟨t, sib⟩ := e
      rw [bfsEnc_cons] at h
      by_cases h1 : MAX_OFFSET < NODE_SIZE * d
      · rw [if_pos h1] at h; simp at h
      · rw [if_neg h1] at h
        cases hrec : bfsEnc fuel (rest ++ mkEntries (sortChildren t.children) enq)
            (d + 1) (enq + (sortChildren t.children).length) with
        | error e' => rw [hrec] at h; simp at h
        | ok out' =>
          rw [hrec] at h
          simp only [Except.ok.injEq] at h
          subst h
          have ht : TrieOK t := hq (t, sib) (List.mem_cons_self _ _)
          rcases List.mem_cons.1 hpr with rfl | hpr'
          · exact ht
          · refine ih _ _ _ _ hrec ?_ pr hpr'
            intro e' he'
            rcases List.mem_append.1 he' with he' | he'
            · exact hq e' (List.mem_cons_of_mem _ he')
            · have : e'.1 ∈ (mkEntries (sortChildren t.children) enq).map Prod.fst :=
                List.mem_map_of_mem Prod.fst he'
              rw [mkEntries_map_fst] at this
              exact ht.childOK (mem_sortChildren.1 this)

/-- On success the run never tripped the capacity check, so the last
assigned offset `10 * (d + N - 1)` is within `MAX_OFFSET`. -/
theorem bfsEnc_ok_cap :
    ∀ (fuel : Nat) (q : List (TrieNode × Option Int)) (d enq : Nat)
      (out : List (TrieNode × LocNode)), bfsEnc fuel q d enq = .ok out →
      q ≠ [] → NODE_SIZE * (d + tsizeQ q - 1) ≤ MAX_OFFSET := by
  intro fuel
  induction fuel with
  | zero =>
    intro q d enq out h hne
    cases q with
    | nil => exact absurd rfl hne
    | cons e rest => rw [bfsEnc_zero_cons] at h; simp at h
  | succ fuel ih =>
    intro q d enq out h hne
    cases q with
    | nil => exact absurd rfl hne
    | cons e rest =>
      obtain ⟨t, sib⟩ := e
      rw [bfsEnc_cons] at h
      by_cases h1 : MAX_OFFSET < NODE_SIZE * d
      · rw [if_pos h1] at h; simp at h
      · rw [if_neg h1] at h
        cases hrec : bfsEnc fuel (rest ++ mkEntries (sortChildren t.children) enq)
            (d + 1) (enq + (sortChildren t.children).length) with
        | error e' => rw [hrec] at h; simp at h
        | ok out' =>
          have hstep := tsizeQ_step t sib rest enq
          by_cases hq' : rest ++ mkEntries (sortChildren t.children) enq = []
          · have : tsizeQ ((t, sib) :: rest) = 1 := by
              rw [← hstep, hq']; simp [tsizeQ]
            rw [this]
            simp only [NODE_SIZE] at h1 ⊢
            omega
          · have := ih _ _ _ _ hrec hq'
            simp only [NODE_SIZE] at this ⊢
            have hpos := tsizeQ_pos hq'
            omega

/-- On success, every non-`None` `first_child` field is the offset of a
node dequeued later: `10 * m` with `1 ≤ m` and `m < d + N` (`N` the
total node count still in the queue).  Requires the FIFO invariant
`enq = d + q.length`. -/
theorem bfsEnc_ok_fc :
    ∀ (fuel : Nat) (q : List (TrieNode × Option Int)) (d enq : Nat)
      (out : List (TrieNode × LocNode)), bfsEnc fuel q d enq = .ok out →
      enq = d + q.length →
      ∀ pr ∈ out, ∀ s : Int, pr.2.first_child = some s →
        ∃ m : Nat, s = ((NODE_SIZE * m : Nat) : Int) ∧ 1 ≤ m ∧
          m + 1 ≤ d + tsizeQ q := by
  intro fuel
  induction fuel with
  | zero =>
    intro q d enq out h _ pr hpr
    cases q with
    | nil => rw [bfsEnc_nil] at h; cases h; exact absurd hpr (List.not_mem_nil pr)
    | cons e rest => rw [bfsEnc_zero_cons] at h; simp at h
  | succ fuel ih =>
    intro q d enq out h henq pr hpr
    cases q with
    | nil => rw [bfsEnc_nil] at h; cases h; exact absurd hpr (List.not_mem_nil pr)
    | cons e rest =>
      obtain ⟨t, sib⟩ := e
      rw [bfsEnc_cons] at h
      by_cases h1 : MAX_OFFSET < NODE_SIZE * d
      · rw [if_pos h1] at h; simp at h
      · rw [if_neg h1] at h
        cases hrec : bfsEnc fuel (rest ++ mkEntries (sortChildren t.children) enq)
            (d + 1) (enq + (sortChildren t.children).length) with
        | error e' => rw [hrec] at h; simp at h
        | ok out' =>
          rw [hrec] at h
          simp only [Except.ok.injEq] at h
          subst h
          have hstep := tsizeQ_step t sib rest enq
          have hhead := tsizeQ_head_children t sib rest
          rcases List.mem_cons.1 hpr with rfl | hpr'
          · intro s hs
            simp only at hs
            by_cases hlen : (sortChildren t.children).length = 0
            · rw [if_pos hlen] at hs; exact absurd hs (by simp)
            · rw [if_neg hlen] at hs
              refine ⟨enq, by simpa using hs.symm, ?_, ?_⟩
              · simp only [List.length_cons] at henq; omega
              · simp only [List.length_cons] at henq
                omega
          · intro s hs
            have henq' : enq + (sortChildren t.children).length =
                (d + 1) + (rest ++ mkEntries (sortChildren t.children) enq).length := by
              rw [List.length_append, mkEntries_length]
              simp only [List.length_cons] at henq
              omega
            rcases ih _ _ _ _ hrec henq' pr hpr' s hs with ⟨m, hm, hm1, hm2⟩
            exact ⟨m, hm, hm1, by omega⟩

/-- On success, every non-`None` `next_sibling` field likewise is
`10 * m` with `1 ≤ m` and `m < d + N`, provided the sibling offsets
already queued satisfy the same bound. -/
theorem bfsEnc_ok_sib :
    ∀ (fuel : Nat) (q : List (TrieNode × Option Int)) (d enq : Nat)
      (out : List (TrieNode × LocNode)), bfsEnc fuel q d enq = .ok out →
      enq = d + q.length →
      (∀ e ∈ q, ∀ s : Int, e.2 = some s →
        ∃ m : Nat, s = ((NODE_SIZE * m : Nat) : Int) ∧ 1 ≤ m ∧
          m + 1 ≤ d + tsizeQ q) →
      ∀ pr ∈ out, ∀ s : Int, pr.2.next_sibling = some s →
        ∃ m : Nat, s = ((NODE_SIZE * m : Nat) : Int) ∧ 1 ≤ m ∧
          m + 1 ≤ d + tsizeQ q := by
  intro fuel
  induction fuel with
  | zero =>
    intro q d enq out h _ _ pr hpr
    cases q with
    | nil => rw [bfsEnc_nil] at h; cases h; exact absurd hpr (List.not_mem_nil pr)
    | cons e rest => rw [bfsEnc_zero_cons] at h; simp at h
  | succ fuel ih =>
    intro q d enq out h henq hq pr hpr
    cases q with
    | nil => rw [bfsEnc_nil] at h; cases h; exact absurd hpr (List.not_mem_nil pr)
    | cons e rest =>
      obtain ⟨t, sib⟩ := e
      rw [bfsEnc_cons] at h
      by_cases h1 : MAX_OFFSET < NODE_SIZE * d
      · rw [if_pos h1] at h; simp at h
      · rw [if_neg h1] at h
        cases hrec : bfsEnc fuel (rest ++ mkEntries (sortChildren t.children) enq)
            (d + 1) (enq + (sortChildren t.children).length) with
        | error e' => rw [hrec] at h; simp at h
        | ok out' =>
          rw [hrec] at h
          simp only [Except.ok.injEq] at h
          subst h
          have hstep := tsizeQ_step t sib rest enq
          have hhead := tsizeQ_head_children t sib rest
          rcases List.mem_cons.1 hpr with rfl | hpr'
          · intro s hs
            simp only at hs
            exact hq (t, sib) (List.mem_cons_self _ _) s hs
          · intro s hs
            have henq' : enq + (sortChildren t.children).length =
                (d + 1) + (rest ++ mkEntries (sortChildren t.children) enq).length := by
              rw [List.length_append, mkEntries_length]
              simp only [List.length_cons] at henq
              omega
            have hq' : ∀ e ∈ rest ++ mkEntries (sortChildren t.children) enq,
                ∀ s : Int, e.2 = some s →
                ∃ m : Nat, s = ((NODE_SIZE * m : Nat) : Int) ∧ 1 ≤ m ∧
                  m + 1 ≤ (d + 1) + tsizeQ
                    (rest ++ mkEntries (sortChildren t.children) enq) := by
              intro e' he' s' hs'
              rcases List.mem_append.1 he' with he' | he'
              · rcases hq e' (List.mem_cons_of_mem _ he') s' hs' with ⟨m, hm, hm1, hm2⟩
                exact ⟨m, hm, hm1, by omega⟩
              · rcases mkEntries_sib _ _ e' he' s' hs' with ⟨j, hj, hjlt⟩
                refine ⟨enq + j + 1, hj, by omega, ?_⟩
                simp only [List.length_cons] at henq
                omega
            rcases ih _ _ _ _ hrec henq' hq' pr hpr' s hs with ⟨m, hm, hm1, hm2⟩
            exact ⟨m, hm, hm1, by omega⟩

/-- On success, for every emitted node with children, the last of its
sorted children is also emitted, and its record's `next_sibling` field
is `None` (the zip-link loop never assigns it). -/
theorem bfsEnc_ok_lastchild :
    ∀ (fuel : Nat) (q : List (TrieNode × Option Int)) (d enq : Nat)
      (out : List (TrieNode × LocNode)), bfsEnc fuel q d enq = .ok out →
      ∀ pr ∈ out, pr.1.children ≠ [] →
        ∃ pr' ∈ out, (sortChildren pr.1.children).getLast? = some pr'.1 ∧
          pr'.2.next_sibling = none := by
  intro fuel
  induction fuel with
  | zero =>
    intro q d enq out h pr hpr
    cases q with
    | nil => rw [bfsEnc_nil] at h; cases h; exact absurd hpr (List.not_mem_nil pr)
    | cons e rest => rw [bfsEnc_zero_cons] at h; simp at h
  | succ fuel ih =>
    intro q d enq out h pr hpr hne
    cases q with
    | nil => rw [bfsEnc_nil] at h; cases h; exact absurd hpr (List.not_mem_nil pr)
    | cons e rest =>
      obtain ⟨t, sib⟩ := e
      rw [bfsEnc_cons] at h
      by_cases h1 : MAX_OFFSET < NODE_SIZE * d
      · rw [if_pos h1] at h; simp at h
      · rw [if_neg h1] at h
        cases hrec : bfsEnc fuel (rest ++ mkEntries (sortChildren t.children) enq)
            (d + 1) (enq + (sortChildren t.children).length) with
        | error e' => rw [hrec] at h; simp at h
        | ok out' =>
          rw [hrec] at h
          simp only [Except.ok.injEq] at h
          subst h
          rcases List.mem_cons.1 hpr with rfl | hpr'
          · -- the head node: its last sorted child sits at the end of the
            -- new queue and is emitted inside the recursive output
            have hcs : sortChildren t.children ≠ [] := by
              intro hnil
              have := congrArg List.length hnil
              rw [sortChildren_length] at this
              exact hne (List.length_eq_zero.1 this)
            rcases mkEntries_getLast? (sortChildren t.children) enq hcs with
              ⟨tl, hlast_cs, hlast_ent⟩
            set q' := rest ++ mkEntries (sortChildren t.children) enq with hqdef
            have hqlast : q'.getLast? = some (tl, none) := by
              rw [hqdef, List.getLast?_append, hlast_ent]
              rfl
            have hqne : q' ≠ [] := by
              intro hnil
              rw [hnil] at hqlast
              exact absurd hqlast (by simp)
            have hqpos : 0 < q'.length := List.length_pos.2 hqne
            have hidx : q'.length - 1 < q'.length := by omega
            have hqget : q'.get ⟨q'.length - 1, hidx⟩ = (tl, none) := by
              have h1' := List.getLast?_eq_getElem? q'
              rw [hqlast, List.getElem?_eq_getElem hidx] at h1'
              simp only [List.get_eq_getElem]
              exact (Option.some.inj h1').symm
            rcases bfsEnc_ok_qcorr fuel q' (d + 1)
              (enq + (sortChildren t.children).length) out' hrec
              (q'.length - 1) hidx with ⟨hi', hfst, hsib⟩
            refine ⟨out'.get ⟨q'.length - 1, hi'⟩,
              List.mem_cons_of_mem _ (List.get_mem out' _ _), ?_, ?_⟩
            · rw [hfst, hqget, hlast_cs]
            · rw [hsib, hqget]
          · rcases ih _ _ _ _ hrec pr hpr' hne with ⟨pr', hmem', hlast, hsib⟩
            exact ⟨pr', List.mem_cons_of_mem _ hmem', hlast, hsib⟩

/-! ## Pipeline glue -/

theorem build_trie_eq (ws : WordTable) :
    build_trie ws = bfsEnc (wordFuel ws) [(buildRootNode ws, none)] 0 1 := rfl

theorem tsizeQ_single (t : TrieNode) (sib : Option Int) :
    tsizeQ [(t, sib)] = tsize t := by simp [tsizeQ]

theorem compileTable_ok_inv {ws : WordTable} {bs : List Nat}
    (h : compileTable ws = .ok bs) :
    ∃ out, build_trie ws = .ok out ∧ write_bin (out.map Prod.snd) [] = .ok bs := by
  unfold compileTable at h
  cases hb : build_trie ws with
  | error e => rw [hb] at h; simp at h
  | ok out =>
    rw [hb] at h
    simp only at h
    cases hw : write_bin (out.map Prod.snd) [] with
    | error ep =>
      obtain ⟨e, l⟩ := ep
      rw [hw] at h
      simp at h
    | ok bs' =>
      rw [hw] at h
      simp only [Except.ok.injEq] at h
      exact ⟨out, rfl, by rw [hw, h]⟩

/-- On a successful build, every record of the output is in range for
`write_bin`, provided all chars fit 16 bits and all freqs fit one byte
(which `TrieOK` of the root guarantees). -/
theorem build_trie_records_valid {ws : WordTable} {out : List (TrieNode × LocNode)}
    (hb : build_trie ws = .ok out) (hok : TrieOK (buildRootNode ws)) :
    ∀ r ∈ out.map Prod.snd, ValidRec r := by
  intro r hr
  rcases List.mem_map.1 hr with ⟨pr, hpr, rfl⟩
  rw [build_trie_eq] at hb
  have hq0 : tsizeQ [((buildRootNode ws), (none : Option Int))] =
      tsize (buildRootNode ws) := tsizeQ_single _ _
  have hN1 : 1 ≤ tsize (buildRootNode ws) := tsize_pos _
  have hcap := bfsEnc_ok_cap _ _ _ _ _ hb (by simp)
  rw [hq0] at hcap
  have hrec := bfsEnc_ok_mem_rec _ _ _ _ _ hb pr hpr
  have htok := bfsEnc_ok_mem_ok _ _ _ _ _ hb
    (by intro e he; rw [List.mem_singleton] at he; rw [he]; exact hok) pr hpr
  refine ⟨?_, ?_, ?_, ?_, ?_, ?_, ?_⟩
  · rw [hrec.1]; exact htok.char_le
  · rw [hrec.2.1]; exact htok.freq_lb
  · rw [hrec.2.1]; exact htok.freq_ub
  · cases hfc : pr.2.first_child with
    | none => simp
    | some s =>
      simp only [Option.getD_some]
      rcases bfsEnc_ok_fc _ _ _ _ _ hb (by simp) pr hpr s hfc with ⟨m, rfl, _, _⟩
      positivity
  · cases hfc : pr.2.first_child with
    | none => simp [MAX_OFFSET]
    | some s =>
      simp only [Option.getD_some]
      rcases bfsEnc_ok_fc _ _ _ _ _ hb (by simp) pr hpr s hfc with ⟨m, rfl, _, hm2⟩
      rw [hq0] at hm2
      have : NODE_SIZE * m ≤ MAX_OFFSET := by
        simp only [NODE_SIZE] at hcap ⊢
        omega
      exact_mod_cast this
  · cases hsib : pr.2.next_sibling with
    | none => simp
    | some s =>
      simp only [Option.getD_some]
      rcases bfsEnc_ok_sib _ _ _ _ _ hb (by simp)
        (by intro e he s' hs'; rw [List.mem_singleton] at he; rw [he] at hs';
            exact absurd hs' (by simp)) pr hpr s hsib with ⟨m, rfl, _, _⟩
      positivity
  · cases hsib : pr.2.next_sibling with
    | none => simp [MAX_OFFSET]
    | some s =>
      simp only [Option.getD_some]
      rcases bfsEnc_ok_sib _ _ _ _ _ hb (by simp)
        (by intro e he s' hs'; rw [List.mem_singleton] at he; rw [he] at hs';
            exact absurd hs' (by simp)) pr hpr s hsib with ⟨m, rfl, _, hm2⟩
      rw [hq0] at hm2
      have : NODE_SIZE * m ≤ MAX_OFFSET := by
        simp only [NODE_SIZE] at hcap ⊢
        omega
      exact_mod_cast this

/-! ## Claim theorems -/

/-- Claim C1: for every word table (well-formed per the spec's data
model: 16-bit characters, frequencies clamped to one byte) whose trie
has `N` nodes with `10 * (N - 1) ≤ 16777215`, `build_trie` followed by
`write_bin` succeeds — no capacity or range error is raised — and the
output is exactly `10 * N` bytes long. -/
theorem claim_C1 (ws : WordTable)
    (hw : ∀ p ∈ ws, (∀ c ∈ p.1, c ≤ 65535) ∧ 0 ≤ p.2 ∧ p.2 ≤ 255)
    (hcap : NODE_SIZE * (tsize (buildRootNode ws) - 1) ≤ MAX_OFFSET) :
    ∃ bs, compileTable ws = .ok bs ∧
      bs.length = NODE_SIZE * tsize (buildRootNode ws) := by
  have hN1 : 1 ≤ tsize (buildRootNode ws) := tsize_pos _
  have hq0 : tsizeQ [((buildRootNode ws), (none : Option Int))] =
      tsize (buildRootNode ws) := tsizeQ_single _ _
  obtain ⟨out, hout⟩ := bfsEnc_ok_of_fits (wordFuel ws)
    [((buildRootNode ws), (none : Option Int))] 0 1
    (by rw [hq0]; exact tsize_buildRootNode_le ws)
    (by rw [hq0]; simp only [NODE_SIZE] at hcap ⊢; simp only [Nat.zero_add]; omega)
  have hb : build_trie ws = .ok out := by rw [build_trie_eq]; exact hout
  have hvalid : ∀ r ∈ out.map Prod.snd, ValidRec r :=
    build_trie_records_valid hb (buildRootNode_TrieOK ws hw)
  have hwr := write_bin_of_valid hvalid []
  refine ⟨[] ++ ((out.map Prod.snd).map encRec).flatten, ?_, ?_⟩
  · unfold compileTable
    rw [hb]
    simp only
    rw [hwr]
  · have hlen := bfsEnc_ok_length _ _ _ _ _ hout
    rw [hq0] at hlen
    simp only [List.nil_append, encJoin_length, List.length_map, hlen, NODE_SIZE]

/-- Witness for C1 at the spec's worked example table. -/
theorem claim_C1_witness :
    ∃ bs, compileTable cat3 = .ok bs ∧
      bs.length = NODE_SIZE * tsize (buildRootNode cat3) := by
  refine claim_C1 cat3 (by decide) ?_
  have hle := tsize_buildRootNode_le cat3
  have hfuel : wordFuel cat3 = 10 := by decide
  rw [hfuel] at hle
  simp only [NODE_SIZE, MAX_OFFSET]
  omega

/-- Claim C4: in the encoded output of every word table, a node with no
children has a `first_child` offset field equal to 0, the last sibling
of every sibling chain has a `next_sibling` offset field equal to 0,
and no node other than the root (emitted first) is assigned offset 0:
the record at output position `i` has offset `10 * i`, hence at least
10 for every non-root node. -/
theorem claim_C4 (ws : WordTable) (ns : List (TrieNode × LocNode))
    (h : build_trie ws = .ok ns) :
    (∀ pr ∈ ns, pr.1.children = [] ↔ pr.2.first_child.getD 0 = 0) ∧
    (∀ pr ∈ ns, pr.1.children ≠ [] →
      ∃ pr' ∈ ns, (sortChildren pr.1.children).getLast? = some pr'.1 ∧
        pr'.2.next_sibling.getD 0 = 0) ∧
    (∀ i (hi : i < ns.length),
      (ns.get ⟨i, hi⟩).2.offset = ((NODE_SIZE * i : Nat) : Int)) ∧
    (∀ i (hi : i < ns.length), i ≠ 0 →
      (10 : Int) ≤ (ns.get ⟨i, hi⟩).2.offset) := by
  rw [build_trie_eq] at h
  refine ⟨?_, ?_, ?_, ?_⟩
  · intro pr hpr
    have hrec := bfsEnc_ok_mem_rec _ _ _ _ _ h pr hpr
    constructor
    · intro hc
      rw [hrec.2.2.1 hc]
      rfl
    · intro hc
      by_contra hne
      have hns : pr.2.first_child ≠ none := by
        intro hnone
        exact hne (hrec.2.2.2 hnone)
      cases hfc : pr.2.first_child with
      | none => exact hns hfc
      | some s =>
        rcases bfsEnc_ok_fc _ _ _ _ _ h (by simp) pr hpr s hfc with ⟨m, rfl, hm1, _⟩
        rw [hfc] at hc
        simp only [Option.getD_some] at hc
        have : NODE_SIZE * m = 0 := by exact_mod_cast hc
        simp only [NODE_SIZE] at this
        omega
  · intro pr hpr hne
    rcases bfsEnc_ok_lastchild _ _ _ _ _ h pr hpr hne with ⟨pr', hmem, hlast, hsib⟩
    exact ⟨pr', hmem, hlast, by rw [hsib]; rfl⟩
  · intro i hi
    have := bfsEnc_ok_offset _ _ _ _ _ h i hi
    simpa using this
  · intro i hi hne
    have := bfsEnc_ok_offset _ _ _ _ _ h i hi
    simp only [Nat.zero_add] at this
    rw [this]
    have h10 : 10 ≤ NODE_SIZE * i := by
      simp only [NODE_SIZE]
      omega
    exact_mod_cast h10

/-- Witness for C4 at the worked example table. -/
theorem claim_C4_witness :
    ∃ ns, build_trie cat3 = Except.ok ns ∧
      ((∀ pr ∈ ns, pr.1.children = [] ↔ pr.2.first_child.getD 0 = 0) ∧
      (∀ pr ∈ ns, pr.1.children ≠ [] →
        ∃ pr' ∈ ns, (sortChildren pr.1.children).getLast? = some pr'.1 ∧
          pr'.2.next_sibling.getD 0 = 0) ∧
      (∀ i (hi : i < ns.length),
        (ns.get ⟨i, hi⟩).2.offset = ((NODE_SIZE * i : Nat) : Int)) ∧
      (∀ i (hi : i < ns.length), i ≠ 0 →
        (10 : Int) ≤ (ns.get ⟨i, hi⟩).2.offset)) :=
  ⟨_, rfl, claim_C4 cat3 _ rfl⟩

/-- Claim C5 (amended): for every word table with no empty-string key,
the first record emitted is the root's: offset 0, character field the
sentinel `'^' = 0x5E` (which the spec reserves for the root), and
frequency field 0 — so the first three output bytes are `[0, 0x5E, 0]`.
(The amendment adds the no-empty-key precondition: see the
counterexample, where the empty word's frequency lands on the root.) -/
theorem claim_C5_amended (ws : WordTable) (bs : List Nat)
    (hne : ∀ p ∈ ws, p.1 ≠ [])
    (h : compileTable ws = .ok bs) :
    (∃ pr rest, build_trie ws = .ok (pr :: rest) ∧
      pr.2.offset = 0 ∧ pr.2.char = 94 ∧ pr.2.freq = 0 ∧
      pr.2.next_sibling = none) ∧
    bs.take 3 = [0, 94, 0] := by
  rcases compileTable_ok_inv h with ⟨out, hb, hw⟩
  have hb' := hb
  rw [build_trie_eq] at hb'
  have hlen : out.length = tsize (buildRootNode ws) := by
    have := bfsEnc_ok_length _ _ _ _ _ hb'
    rwa [tsizeQ_single] at this
  have hpos : 0 < out.length := by
    rw [hlen]; exact tsize_pos _
  cases hout : out with
  | nil => rw [hout] at hpos; simp at hpos
  | cons pr rest =>
    rw [hout] at hb' hw hlen
    have h0 : (0 : Nat) < (pr :: rest).length := by simp
    rcases bfsEnc_ok_qcorr _ _ _ _ _ hb' 0 (by simp) with ⟨hi', hfst, hsib⟩
    simp only [List.get] at hfst hsib
    have hoff := bfsEnc_ok_offset _ _ _ _ _ hb' 0 (by simp)
    simp only [List.get] at hoff
    have hrec := bfsEnc_ok_mem_rec _ _ _ _ _ hb' pr (List.mem_cons_self pr rest)
    have hchar : pr.2.char = 94 := by
      rw [hrec.1, hfst]
      exact buildRootNode_char ws
    have hfreq : pr.2.freq = 0 := by
      rw [hrec.2.1, hfst]
      exact buildRootNode_freq_of_no_empty ws hne
    refine ⟨⟨pr, rest, by rw [hb, hout], ?_, hchar, hfreq, by rw [hsib]⟩, ?_⟩
    · rw [hoff]; rfl
    · have hvalid := write_bin_valid_of_ok _ _ _ hw
      rw [write_bin_of_valid hvalid] at hw
      have heq := Except.ok.inj hw
      subst heq
      simp only [List.nil_append, List.map_cons, List.flatten_cons]
      rw [encRec, hchar, hfreq]
      simp [u24bytes]

/-- Witness for C5 (amended) at the worked example table. -/
theorem claim_C5_witness :
    (∃ pr rest, build_trie cat3 = Except.ok (pr :: rest) ∧
      pr.2.offset = 0 ∧ pr.2.char = 94 ∧ pr.2.freq = 0 ∧
      pr.2.next_sibling = none) ∧
    ([0,94,0,0,0,10,0,0,0,0, 0,99,0,0,0,20,0,0,0,0, 0,97,0,0,0,30,0,0,0,0,
      0,110,10,0,0,0,0,0,40,0, 0,114,30,0,0,0,0,0,50,0,
      0,116,50,0,0,0,0,0,0,0] : List Nat).take 3 = [0, 94, 0] :=
  claim_C5_amended cat3 _ (by decide) rfl

/-- Counterexample to C5 as stated: the word table `{"": 7}` (legal for
`build_trie`) compiles successfully, but the first — root — record
carries frequency 7, not 0: the root-frequency part of the claim fails
without a no-empty-key precondition (see C10). -/
theorem claim_C5_counterexample :
    compileTable emptyKeyTable = .ok [0, 94, 7, 0, 0, 0, 0, 0, 0, 0] ∧
    (build_trie emptyKeyTable).map (List.map Prod.snd) =
      .ok [⟨94, 7, 0, none, none⟩] ∧
    (7 : Nat) ≠ 0 :=
  ⟨rfl, rfl, by decide⟩

/-- Claim C10: if the mapping passed to `build_trie` contains the empty
string as a key (with frequency `f`), the insertion loop walks zero
characters and assigns `f` to the root node itself, so the root's
encoded frequency field equals `f` instead of 0. -/
theorem claim_C10 (ws : WordTable) (f : Int) (bs : List Nat)
    (hnd : (ws.map Prod.fst).Nodup) (hmem : ([], f) ∈ ws)
    (h : compileTable ws = .ok bs) :
    (buildRootNode ws).freq = f ∧ bs.take 3 = [0, 94, f.toNat] := by
  have hroot : (buildRootNode ws).freq = f :=
    buildRootNode_freq_of_empty ws f hnd hmem
  refine ⟨hroot, ?_⟩
  rcases compileTable_ok_inv h with ⟨out, hb, hw⟩
  have hb' := hb
  rw [build_trie_eq] at hb'
  have hlen : out.length = tsize (buildRootNode ws) := by
    have := bfsEnc_ok_length _ _ _ _ _ hb'
    rwa [tsizeQ_single] at this
  have hpos : 0 < out.length := by
    rw [hlen]; exact tsize_pos _
  cases hout : out with
  | nil => rw [hout] at hpos; simp at hpos
  | cons pr rest =>
    rw [hout] at hb' hw
    rcases bfsEnc_ok_qcorr _ _ _ _ _ hb' 0 (by simp) with ⟨hi', hfst, hsib⟩
    simp only [List.get] at hfst
    have hrec := bfsEnc_ok_mem_rec _ _ _ _ _ hb' pr (List.mem_cons_self pr rest)
    have hchar : pr.2.char = 94 := by
      rw [hrec.1, hfst]
      exact buildRootNode_char ws
    have hfreq : pr.2.freq = f := by
      rw [hrec.2.1, hfst]
      exact hroot
    have hvalid := write_bin_valid_of_ok _ _ _ hw
    rw [write_bin_of_valid hvalid] at hw
    have heq := Except.ok.inj hw
    subst heq
    simp only [List.nil_append, List.map_cons, List.flatten_cons]
    rw [encRec, hchar, hfreq]
    simp [u24bytes]

/-- Witness for C10 at the table `{"": 7}`. -/
theorem claim_C10_witness :
    (buildRootNode emptyKeyTable).freq = 7 ∧
    ([0, 94, 7, 0, 0, 0, 0, 0, 0, 0] : List Nat).take 3 = [0, 94, (7 : Int).toNat] :=
  claim_C10 emptyKeyTable 7 _ (by decide) (by decide) rfl

/-- Claim C7: the spec's worked example.  `{"cat": 50, "car": 30,
"can": 10}` builds exactly 6 nodes (root `^`, `c`, `a`, then `n`, `r`,
`t` — the children of `a` sorted ascending by code point, a sibling
chain `n → r → t` with frequencies 10, 30, 50), and the encoded buffer
is exactly 60 bytes. -/
theorem claim_C7 :
    (∃ ns, build_trie cat3 = Except.ok ns ∧ ns.length = 6) ∧
    (build_trie cat3).map (List.map Prod.snd) = .ok
      [⟨94, 0, 0, some 10, none⟩, ⟨99, 0, 10, some 20, none⟩,
       ⟨97, 0, 20, some 30, none⟩, ⟨110, 10, 30, none, some 40⟩,
       ⟨114, 30, 40, none, some 50⟩, ⟨116, 50, 50, none, none⟩] ∧
    sortChildren [TrieNode.mk 116 50 [], TrieNode.mk 114 30 [], TrieNode.mk 110 10 []] =
      [TrieNode.mk 110 10 [], TrieNode.mk 114 30 [], TrieNode.mk 116 50 []] ∧
    compileTable cat3 = .ok
      [0,94,0,0,0,10,0,0,0,0, 0,99,0,0,0,20,0,0,0,0, 0,97,0,0,0,30,0,0,0,0,
       0,110,10,0,0,0,0,0,40,0, 0,114,30,0,0,0,0,0,50,0,
       0,116,50,0,0,0,0,0,0,0] ∧
    ([0,94,0,0,0,10,0,0,0,0, 0,99,0,0,0,20,0,0,0,0, 0,97,0,0,0,30,0,0,0,0,
      0,110,10,0,0,0,0,0,40,0, 0,114,30,0,0,0,0,0,50,0,
      0,116,50,0,0,0,0,0,0,0] : List Nat).length = 60 :=
  ⟨⟨_, rfl, rfl⟩, rfl, rfl, rfl, rfl⟩

/-- Claim C2 (amended): if any `first_child` or `next_sibling` offset of
a node list is outside `[0, 16777215]`, encoding fails (no complete
buffer is ever produced); however, the failure is not clean: by the
time `_uint24` raises on the offending field, the fields of that record
that precede it (char and freq, plus the first-child bytes when the
next-sibling offset is the bad one) have already been written, leaving
a truncated record at the end of the output. -/
theorem claim_C2_amended (ns : List LocNode) (acc : List Nat) :
    ((∃ r ∈ ns, r.first_child.getD 0 < 0 ∨ (MAX_OFFSET : Int) < r.first_child.getD 0 ∨
        r.next_sibling.getD 0 < 0 ∨ (MAX_OFFSET : Int) < r.next_sibling.getD 0) →
      ∀ bs, write_bin ns acc ≠ .ok bs) ∧
    (∀ pre r post, ns = pre ++ r :: post → (∀ n ∈ pre, ValidRec n) →
      r.char ≤ 65535 → 0 ≤ r.freq → r.freq ≤ 255 →
      (r.first_child.getD 0 < 0 ∨ (MAX_OFFSET : Int) < r.first_child.getD 0) →
      write_bin ns acc = .error (.valueError24 (r.first_child.getD 0),
        acc ++ (pre.map encRec).flatten ++ [r.char / 256, r.char % 256, r.freq.toNat])) ∧
    (∀ pre r post, ns = pre ++ r :: post → (∀ n ∈ pre, ValidRec n) →
      r.char ≤ 65535 → 0 ≤ r.freq → r.freq ≤ 255 →
      0 ≤ r.first_child.getD 0 → r.first_child.getD 0 ≤ (MAX_OFFSET : Int) →
      (r.next_sibling.getD 0 < 0 ∨ (MAX_OFFSET : Int) < r.next_sibling.getD 0) →
      write_bin ns acc = .error (.valueError24 (r.next_sibling.getD 0),
        acc ++ (pre.map encRec).flatten ++ [r.char / 256, r.char % 256, r.freq.toNat] ++
          u24bytes (r.first_child.getD 0))) := by
  refine ⟨?_, ?_, ?_⟩
  · rintro ⟨r, hr, hbad⟩ bs hok
    have hv := write_bin_valid_of_ok ns acc bs hok r hr
    obtain ⟨_, _, _, h4, h5, h6, h7⟩ := hv
    rcases hbad with h | h | h | h <;> omega
  · intro pre r post hns hpre hc hf0 hf1 hbad
    rw [hns]
    exact write_bin_bad_fc post hpre hc hf0 hf1 hbad acc
  · intro pre r post hns hpre hc hf0 hf1 hfc0 hfc1 hbad
    rw [hns]
    exact write_bin_bad_sib post hpre hc hf0 hf1 hfc0 hfc1 hbad acc

/-- Witness for C2 (amended): one record whose `first_child` offset is
`0x1000000`; encoding fails with exactly the record's char and freq
bytes (3 bytes) already emitted. -/
theorem claim_C2_witness :
    write_bin [badOffsetNode] [] =
      .error (.valueError24 16777216, [0, 94, 0]) := by
  have h := (claim_C2_amended [badOffsetNode] []).2.1 [] badOffsetNode []
    rfl (by intro n hn; exact absurd hn (List.not_mem_nil n))
    (by decide) (by decide) (by decide) (by decide)
  simpa using h

/-- Counterexample to C2 as stated: for the node list of
`claim_C2_witness`, encoding does fail, but the output at the moment of
failure contains 3 bytes of the offending node's record — char and
freq — contradicting "no bytes of the offending node's record are
emitted". -/
theorem claim_C2_counterexample :
    write_bin [badOffsetNode] [] =
      .error (.valueError24 16777216, [0, 94, 0]) ∧
    ([0, 94, 0] : List Nat) ≠ [] ∧ ([0, 94, 0] : List Nat).length = 3 :=
  ⟨rfl, by decide, rfl⟩

/-! ## Machinery for C8: encoding with an out-of-BMP character -/

theorem TrieFreqOK.lb {t : TrieNode} (h : TrieFreqOK t) : 0 ≤ t.freq := by
  cases h; simpa

theorem TrieFreqOK.ub {t : TrieNode} (h : TrieFreqOK t) : t.freq ≤ 255 := by
  cases h; simpa

theorem TrieFreqOK.childFreqOK {t t' : TrieNode} (h : TrieFreqOK t)
    (h' : t' ∈ t.children) : TrieFreqOK t' := by
  cases h with
  | intro _ _ hcs => exact hcs t' h'

theorem insertPath_TrieFreqOK {t : TrieNode} {w : Word} {f : Int}
    (ht : TrieFreqOK t) (hf0 : 0 ≤ f) (hf1 : f ≤ 255) :
    TrieFreqOK (insertPath t w f) := by
  induction w generalizing t with
  | nil =>
    cases t with
    | mk c fr cs =>
      cases ht with
      | intro _ _ hcs => exact TrieFreqOK.intro hf0 hf1 hcs
  | cons ch rest ih =>
    cases t with
    | mk c fr cs =>
      cases ht with
      | intro hfr0 hfr1 hcs =>
        refine TrieFreqOK.intro hfr0 hfr1 ?_
        intro x hx
        rcases updChild_mem hx with hx' | ⟨y, hy, rfl⟩
        · exact hcs x hx'
        · rcases hy with hy | rfl
          · exact ih (hcs y hy)
          · exact ih (TrieFreqOK.intro le_rfl (by norm_num)
              (fun x hx' => absurd hx' (List.not_mem_nil x)))

theorem buildRootNode_TrieFreqOK (ws : WordTable)
    (h : ∀ p ∈ ws, 0 ≤ p.2 ∧ p.2 ≤ 255) : TrieFreqOK (buildRootNode ws) := by
  suffices hgen : ∀ (l : List (Word × Int)) (t : TrieNode), TrieFreqOK t →
      (∀ p ∈ l, 0 ≤ p.2 ∧ p.2 ≤ 255) →
      TrieFreqOK (l.foldl (fun t p => insertPath t p.1 p.2) t) by
    refine hgen ws _ ?_ h
    exact TrieFreqOK.intro le_rfl (by norm_num)
      (fun x hx => absurd hx (List.not_mem_nil x))
  intro l
  induction l with
  | nil => intro t ht _; exact ht
  | cons p l ih =>
    intro t ht hl
    rw [List.foldl_cons]
    have hp := hl p (List.mem_cons_self p l)
    exact ih _ (insertPath_TrieFreqOK ht hp.1 hp.2)
      (fun q hq => hl q (List.mem_cons_of_mem p hq))

theorem bfsEnc_ok_mem_freq :
    ∀ (fuel : Nat) (q : List (TrieNode × Option Int)) (d enq : Nat)
      (out : List (TrieNode × LocNode)), bfsEnc fuel q d enq = .ok out →
      (∀ e ∈ q, TrieFreqOK e.1) → ∀ pr ∈ out, TrieFreqOK pr.1 := by
  intro fuel
  induction fuel with
  | zero =>
    intro q d enq out h hq pr hpr
    cases q with
    | nil => rw [bfsEnc_nil] at h; cases h; exact absurd hpr (List.not_mem_nil pr)
    | cons e rest => rw [bfsEnc_zero_cons] at h; simp at h
  | succ fuel ih =>
    intro q d enq out h hq pr hpr
    cases q with
    | nil => rw [bfsEnc_nil] at h; cases h; exact absurd hpr (List.not_mem_nil pr)
    | cons e rest =>
      obtain ⟨t, sib⟩ := e
      rw [bfsEnc_cons] at h
      by_cases h1 : MAX_OFFSET < NODE_SIZE * d
      · rw [if_pos h1] at h; simp at h
      · rw [if_neg h1] at h
        cases hrec : bfsEnc fuel (rest ++ mkEntries (sortChildren t.children) enq)
            (d + 1) (enq + (sortChildren t.children).length) with
        | error e' => rw [hrec] at h; simp at h
        | ok out' =>
          rw [hrec] at h
          simp only [Except.ok.injEq] at h
          subst h
          have ht : TrieFreqOK t := hq (t, sib) (List.mem_cons_self _ _)
          rcases List.mem_cons.1 hpr with rfl | hpr'
          · exact ht
          · refine ih _ _ _ _ hrec ?_ pr hpr'
            intro e' he'
            rcases List.mem_append.1 he' with he' | he'
            · exact hq e' (List.mem_cons_of_mem _ he')
            · have : e'.1 ∈ (mkEntries (sortChildren t.children) enq).map Prod.fst :=
                List.mem_map_of_mem Prod.fst he'
              rw [mkEntries_map_fst] at this
              exact ht.childFreqOK (mem_sortChildren.1 this)

/-- Breadth-first completeness: every character present somewhere in a
queued trie shows up as the char of some emitted node. -/
theorem bfsEnc_ok_haschar :
    ∀ (fuel : Nat) (q : List (TrieNode × Option Int)) (d enq : Nat)
      (out : List (TrieNode × LocNode)), bfsEnc fuel q d enq = .ok out →
      ∀ e ∈ q, ∀ c, HasChar e.1 c → ∃ pr ∈ out, pr.1.char = c := by
  intro fuel
  induction fuel with
  | zero =>
    intro q d enq out h e he
    cases q with
    | nil => exact absurd he (List.not_mem_nil e)
    | cons e' rest => rw [bfsEnc_zero_cons] at h; simp at h
  | succ fuel ih =>
    intro q d enq out h e he c hc
    cases q with
    | nil => exact absurd he (List.not_mem_nil e)
    | cons e' rest =>
      obtain ⟨t, sib⟩ := e'
      rw [bfsEnc_cons] at h
      by_cases h1 : MAX_OFFSET < NODE_SIZE * d
      · rw [if_pos h1] at h; simp at h
      · rw [if_neg h1] at h
        cases hrec : bfsEnc fuel (rest ++ mkEntries (sortChildren t.children) enq)
            (d + 1) (enq + (sortChildren t.children).length) with
        | error e'' => rw [hrec] at h; simp at h
        | ok out' =>
          rw [hrec] at h
          simp only [Except.ok.injEq] at h
          subst h
          rcases List.mem_cons.1 he with rfl | he'
          · -- the head trie: its root char is emitted now, a child char
            -- is found in the recursive output
            cases hc with
            | here => exact ⟨_, List.mem_cons_self _ _, rfl⟩
            | child hmem hx =>
              rename_i cx fx csx tx
              have htx : tx ∈ (mkEntries
                  (sortChildren (TrieNode.mk cx fx csx).children) enq).map Prod.fst := by
                rw [mkEntries_map_fst, mem_sortChildren]
                simpa using hmem
              rcases List.mem_map.1 htx with ⟨ee, hee, heq⟩
              rcases ih _ _ _ _ hrec ee (List.mem_append_right rest hee) c
                (by rw [heq]; exact hx) with ⟨pr, hpr, hprc⟩
              exact ⟨pr, List.mem_cons_of_mem _ hpr, hprc⟩
          · rcases ih _ _ _ _ hrec e (List.mem_append_left _ he') c hc with
              ⟨pr, hpr, hprc⟩
            exact ⟨pr, List.mem_cons_of_mem _ hpr, hprc⟩

/-- Like `build_trie_records_valid` but without any character bound:
freq and both offset fields of every record are in range. -/
theorem build_trie_records_validfreq {ws : WordTable}
    {out : List (TrieNode × LocNode)}
    (hb : build_trie ws = .ok out) (hok : TrieFreqOK (buildRootNode ws)) :
    ∀ r ∈ out.map Prod.snd, 0 ≤ r.freq ∧ r.freq ≤ 255 ∧
      0 ≤ r.first_child.getD 0 ∧ r.first_child.getD 0 ≤ (MAX_OFFSET : Int) ∧
      0 ≤ r.next_sibling.getD 0 ∧ r.next_sibling.getD 0 ≤ (MAX_OFFSET : Int) := by
  intro r hr
  rcases List.mem_map.1 hr with ⟨pr, hpr, rfl⟩
  rw [build_trie_eq] at hb
  have hq0 : tsizeQ [((buildRootNode ws), (none : Option Int))] =
      tsize (buildRootNode ws) := tsizeQ_single _ _
  have hcap := bfsEnc_ok_cap _ _ _ _ _ hb (by simp)
  rw [hq0] at hcap
  have hrec := bfsEnc_ok_mem_rec _ _ _ _ _ hb pr hpr
  have htok := bfsEnc_ok_mem_freq _ _ _ _ _ hb
    (by intro e he; rw [List.mem_singleton] at he; rw [he]; exact hok) pr hpr
  refine ⟨?_, ?_, ?_, ?_, ?_, ?_⟩
  · rw [hrec.2.1]; exact htok.lb
  · rw [hrec.2.1]; exact htok.ub
  · cases hfc : pr.2.first_child with
    | none => simp
    | some s =>
      simp only [Option.getD_some]
      rcases bfsEnc_ok_fc _ _ _ _ _ hb (by simp) pr hpr s hfc with ⟨m, rfl, _, _⟩
      positivity
  · cases hfc : pr.2.first_child with
    | none => simp [MAX_OFFSET]
    | some s =>
      simp only [Option.getD_some]
      rcases bfsEnc_ok_fc _ _ _ _ _ hb (by simp) pr hpr s hfc with ⟨m, rfl, _, hm2⟩
      rw [hq0] at hm2
      have : NODE_SIZE * m ≤ MAX_OFFSET := by
        simp only [NODE_SIZE] at hcap ⊢
        omega
      exact_mod_cast this
  · cases hsib : pr.2.next_sibling with
    | none => simp
    | some s =>
      simp only [Option.getD_some]
      rcases bfsEnc_ok_sib _ _ _ _ _ hb (by simp)
        (by intro e he s' hs'; rw [List.mem_singleton] at he; rw [he] at hs';
            exact absurd hs' (by simp)) pr hpr s hsib with ⟨m, rfl, _, _⟩
      positivity
  · cases hsib : pr.2.next_sibling with
    | none => simp [MAX_OFFSET]
    | some s =>
      simp only [Option.getD_some]
      rcases bfsEnc_ok_sib _ _ _ _ _ hb (by simp)
        (by intro e he s' hs'; rw [List.mem_singleton] at he; rw [he] at hs';
            exact absurd hs' (by simp)) pr hpr s hsib with ⟨m, rfl, _, hm2⟩
      rw [hq0] at hm2
      have : NODE_SIZE * m ≤ MAX_OFFSET := by
        simp only [NODE_SIZE] at hcap ⊢
        omega
      exact_mod_cast this

/-- If every record is in range except that some record's char exceeds
16 bits, `write_bin` fails on the first such record with the char-pack
error, after a whole number of complete records (no partial record). -/
theorem write_bin_char_fail :
    ∀ (rs : List LocNode) (acc : List Nat),
      (∀ r ∈ rs, 0 ≤ r.freq ∧ r.freq ≤ 255 ∧
        0 ≤ r.first_child.getD 0 ∧ r.first_child.getD 0 ≤ (MAX_OFFSET : Int) ∧
        0 ≤ r.next_sibling.getD 0 ∧ r.next_sibling.getD 0 ≤ (MAX_OFFSET : Int)) →
      (∃ r ∈ rs, 65535 < r.char) →
      ∃ (c : Nat) (acc' : List Nat) (k : Nat), 65535 < c ∧
        write_bin rs acc = .error (.structRangeH c, acc') ∧
        acc'.length = acc.length + 10 * k := by
  intro rs
  induction rs with
  | nil =>
    intro acc _ hbad
    rcases hbad with ⟨r, hr, _⟩
    exact absurd hr (List.not_mem_nil r)
  | cons n rs ih =>
    intro acc hall hbad
    by_cases hc : 65535 < n.char
    · refine ⟨n.char, acc, 0, hc, ?_, by omega⟩
      rw [write_bin]
      simp [packH, hc]
    · have hn := hall n (List.mem_cons_self n rs)
      obtain ⟨h2, h3, h4, h5, h6, h7⟩ := hn
      have hbad' : ∃ r ∈ rs, 65535 < r.char := by
        rcases hbad with ⟨r, hr, hrc⟩
        rcases List.mem_cons.1 hr with rfl | hr'
        · exact absurd hrc hc
        · exact ⟨r, hr', hrc⟩
      rcases ih (acc ++ encRec n)
        (fun x hx => hall x (List.mem_cons_of_mem n hx)) hbad' with
        ⟨c, acc', k, hcgt, hw, hlen⟩
      refine ⟨c, acc', k + 1, hcgt, ?_, ?_⟩
      · rw [write_bin, packH_ok (Nat.not_lt.1 hc), packB_ok h2 h3, uint24_ok h4 h5,
          uint24_ok h6 h7]
        simp only
        rw [← hw]
        congr 1
        simp [encRec, List.append_assoc]
      · rw [hlen]
        simp only [List.length_append, encRec_length]
        ring

theorem compileTable_write_error {ws : WordTable} {out : List (TrieNode × LocNode)}
    {e : PyErr} {l : List Nat} (hb : build_trie ws = .ok out)
    (hw : write_bin (out.map Prod.snd) [] = .error (e, l)) :
    compileTable ws = .error e := by
  unfold compileTable
  rw [hb]
  simp only
  rw [hw]

/-- Claim C8: if any word contains a character whose code point exceeds
`0xFFFF`, the encoder fails packing that node's 2-byte character field
(the unchecked `struct` range error, not one of the script's own
`ValueError`s), before emitting any byte of that record — the bytes
written are a whole number of complete records; and encoding is total
only under the precondition that every character fits 16 bits: a
successful `write_bin` forces every record's char below `0x10000`. -/
theorem claim_C8 (ws : WordTable) (ns : List (TrieNode × LocNode))
    (hfreq : ∀ p ∈ ws, 0 ≤ p.2 ∧ p.2 ≤ 255)
    (hb : build_trie ws = .ok ns)
    (hbad : ∃ p ∈ ws, ∃ c ∈ p.1, 65535 < c) :
    (∃ c, 65535 < c ∧ compileTable ws = .error (.structRangeH c) ∧
      ∃ acc' k, write_bin (ns.map Prod.snd) [] = .error (.structRangeH c, acc') ∧
        acc'.length = 10 * k) ∧
    (∀ (rs : List LocNode) (acc bs : List Nat),
      write_bin rs acc = Except.ok bs → ∀ r ∈ rs, r.char ≤ 65535) := by
  constructor
  · have hval := build_trie_records_validfreq hb (buildRootNode_TrieFreqOK ws hfreq)
    rcases hbad with ⟨p, hp, c, hcp, hc⟩
    have hhc : HasChar (buildRootNode ws) c :=
      buildRootNode_hasChar (f := p.2) (by simpa using hp) hcp
    have hb' := hb
    rw [build_trie_eq] at hb'
    rcases bfsEnc_ok_haschar _ _ _ _ _ hb'
      ((buildRootNode ws), (none : Option Int)) (List.mem_singleton.2 rfl) c hhc with
      ⟨pr, hpr, hprc⟩
    have hrec := bfsEnc_ok_mem_rec _ _ _ _ _ hb' pr hpr
    have hbadrec : ∃ r ∈ ns.map Prod.snd, 65535 < r.char := by
      refine ⟨pr.2, List.mem_map_of_mem Prod.snd hpr, ?_⟩
      rw [hrec.1, hprc]
      exact hc
    rcases write_bin_char_fail (ns.map Prod.snd) [] hval hbadrec with
      ⟨c', acc', k, hc', hw, hlen⟩
    refine ⟨c', hc', compileTable_write_error hb hw, acc', k, hw, ?_⟩
    simpa using hlen
  · intro rs acc bs hok r hr
    exact (write_bin_valid_of_ok rs acc bs hok r hr).1

/-- Witness for C8 at a table whose single word is the out-of-BMP
character `U+11111` (code point 69905). -/
theorem claim_C8_witness :
    ∃ ns, build_trie astralTable = Except.ok ns ∧
      ((∃ c, 65535 < c ∧ compileTable astralTable = .error (.structRangeH c) ∧
        ∃ acc' k, write_bin (ns.map Prod.snd) [] = .error (.structRangeH c, acc') ∧
          acc'.length = 10 * k) ∧
      (∀ (rs : List LocNode) (acc bs : List Nat),
        write_bin rs acc = Except.ok bs → ∀ r ∈ rs, r.char ≤ 65535)) :=
  ⟨_, rfl, claim_C8 astralTable _ (by decide) rfl
    ⟨([69905], 5), by decide, 69905, by decide, by decide⟩⟩

/-! ## Parser lemmas -/

theorem clamp_range (z : Int) :
    0 ≤ max 0 (min 255 z) ∧ max 0 (min 255 z) ≤ 255 := by
  constructor <;> omega

theorem dictInsert_mem {ws : List (Word × Int)} {w : Word} {v : Int}
    {x : Word × Int} (hx : x ∈ dictInsert ws w v) : x ∈ ws ∨ x.2 = v := by
  induction ws with
  | nil =>
    simp only [dictInsert, List.mem_singleton] at hx
    exact Or.inr (by rw [hx])
  | cons p ws ih =>
    obtain ⟨w', v'⟩ := p
    by_cases hw : w' = w
    · simp only [dictInsert, if_pos hw, List.mem_cons] at hx
      rcases hx with rfl | hx'
      · exact Or.inr rfl
      · exact Or.inl (List.mem_cons_of_mem _ hx')
    · simp only [dictInsert, if_neg hw, List.mem_cons] at hx
      rcases hx with rfl | hx'
      · exact Or.inl (List.mem_cons_self _ _)
      · exact (ih hx').imp_left (List.mem_cons_of_mem _)

/-- One step of the line loop, written out. -/
theorem parseLoop_cons (maxW : Nat) (raw : List Nat) (rest : List (List Nat))
    (ws : List (Word × Int)) (count : Nat) :
    parseLoop maxW (raw :: rest) ws count =
      if maxW ≤ count then .ok ws
      else
        if pyStrip raw = [] || (pyStrip raw).head? = some 35 then
          parseLoop maxW rest ws count
        else
          match pySplit ((pyStrip raw).map replSep) with
          | [] => .error .indexError
          | word :: parts1 =>
            parseLoop maxW rest (dictInsert ws word (max 0 (min 255
              (match parts1 with
               | p1 :: _ =>
                 if pyIsDigit p1 then (digitsVal p1 : Int) else ((1000 + count : Nat) : Int)
               | [] => ((1000 + count : Nat) : Int))))) (count + 1) := rfl

/-- Every frequency the parser ever stores is clamped into `[0, 255]`. -/
theorem parseLoop_range :
    ∀ (lines : List (List Nat)) (maxW : Nat) (ws : List (Word × Int)) (count : Nat),
      (∀ p ∈ ws, 0 ≤ p.2 ∧ p.2 ≤ 255) →
      ∀ res, parseLoop maxW lines ws count = .ok res →
        ∀ p ∈ res, 0 ≤ p.2 ∧ p.2 ≤ 255 := by
  intro lines
  induction lines with
  | nil =>
    intro maxW ws count hws res h
    rw [parseLoop] at h
    cases h
    exact hws
  | cons raw rest ih =>
    intro maxW ws count hws res h
    rw [parseLoop_cons] at h
    by_cases hmc : maxW ≤ count
    · rw [if_pos hmc] at h; cases h; exact hws
    · rw [if_neg hmc] at h
      by_cases hskip : pyStrip raw = [] || (pyStrip raw).head? = some 35
      · rw [if_pos hskip] at h
        exact ih maxW ws count hws res h
      · rw [if_neg hskip] at h
        cases hsplit : pySplit ((pyStrip raw).map replSep) with
        | nil => rw [hsplit] at h; simp at h
        | cons word parts1 =>
          rw [hsplit] at h
          simp only at h
          refine ih maxW _ (count + 1) ?_ res h
          intro p hp
          rcases dictInsert_mem hp with hp' | hp'
          · exact hws p hp'
          · rw [hp']
            exact clamp_range _

theorem mem_pyStrip {c : Nat} {raw : List Nat} (h : c ∈ pyStrip raw) : c ∈ raw := by
  unfold pyStrip at h
  rw [List.mem_reverse] at h
  have h1 := (List.dropWhile_sublist (l := (raw.dropWhile isPySpace).reverse)
    (p := isPySpace)).mem h
  rw [List.mem_reverse] at h1
  exact (List.dropWhile_sublist (l := raw) (p := isPySpace)).mem h1

theorem pySplitGo_all_space {l : List Nat} (h : ∀ c ∈ l, isPySpace c = true) :
    pySplitGo l [] = [] := by
  induction l with
  | nil => rfl
  | cons c cs ih =>
    rw [pySplitGo]
    rw [if_pos (h c (List.mem_cons_self c cs))]
    simp only [if_pos rfl]
    exact ih (fun x hx => h x (List.mem_cons_of_mem c hx))

/-- Claim C9 (amended): any line that, after stripping, is non-empty,
not a comment, and consists only of separator characters (so its first
surviving character is a comma) makes the parser take `parts[0]` of an
empty token list: an `IndexError`, whatever the parser state
(provided the word cap has not been reached).  The amendment excludes
lines of only tabs/spaces, which `strip` empties so the parser skips
them — see the counterexample. -/
theorem claim_C9_amended (raw : List Nat)
    (hne : pyStrip raw ≠ []) (hnc : ¬(pyStrip raw).head? = some 35)
    (hsep : ∀ c ∈ raw, c = 9 ∨ c = 32 ∨ c = 44) :
    ∀ (maxW : Nat) (rest : List (List Nat)) (ws : List (Word × Int)) (count : Nat),
      count < maxW →
      parseLoop maxW (raw :: rest) ws count = .error .indexError := by
  intro maxW rest ws count hcm
  rw [parseLoop_cons]
  rw [if_neg (by omega : ¬maxW ≤ count)]
  have hcond : ¬(pyStrip raw = [] || (pyStrip raw).head? = some 35) := by
    simp only [Bool.or_eq_true, decide_eq_true_eq, not_or]
    exact ⟨hne, hnc⟩
  rw [if_neg hcond]
  have hsplit : pySplit ((pyStrip raw).map replSep) = [] := by
    unfold pySplit
    apply pySplitGo_all_space
    intro c hc
    rcases List.mem_map.1 hc with ⟨c0, hc0, rfl⟩
    have := hsep c0 (mem_pyStrip hc0)
    rcases this with rfl | rfl | rfl <;> simp [replSep, isPySpace]
  rw [hsplit]

/-- Witness for C9 (amended): the line `","`. -/
theorem claim_C9_witness :
    parse_words [[44]] 50000 = .error .indexError :=
  claim_C9_amended [44] (by decide) (by decide) (by decide) 50000 [] [] 0 (by decide)

/-- Counterexample to C9 as stated: the line `"\t"` (a single tab) is
non-empty, is not a comment, and consists only of separator
characters, yet the parser does not fail — `strip` empties the line
and it is skipped. -/
theorem claim_C9_counterexample :
    ([9] : List Nat) ≠ [] ∧ (∀ c ∈ ([9] : List Nat), c = 9 ∨ c = 32 ∨ c = 44) ∧
    ¬([9] : List Nat).head? = some 35 ∧
    parse_words [[9]] 50000 = .ok [] :=
  ⟨by decide, by decide, by decide, rfl⟩

/-- Claim C6: every frequency stored by the parser is in `[0, 255]`; a
purely numeric token is clamped into that range, and an absent or
non-numeric token is synthesized as `1000 + count` (the line's
processing order index) and then clamped — always to 255, since
`1000 + count ≥ 1000`. -/
theorem claim_C6 :
    (∀ (lines : List (List Nat)) (maxW : Nat) (res : List (Word × Int)),
      parse_words lines maxW = .ok res → ∀ p ∈ res, 0 ≤ p.2 ∧ p.2 ≤ 255) ∧
    (∀ (maxW : Nat) (raw : List Nat) (rest : List (List Nat))
       (ws : List (Word × Int)) (count : Nat) (word tok : List Nat)
       (more : List (List Nat)),
      ¬maxW ≤ count → ¬(pyStrip raw = [] || (pyStrip raw).head? = some 35) →
      pySplit ((pyStrip raw).map replSep) = word :: tok :: more →
      pyIsDigit tok = true →
      parseLoop maxW (raw :: rest) ws count =
        parseLoop maxW rest
          (dictInsert ws word (max 0 (min 255 (digitsVal tok : Int)))) (count + 1)) ∧
    (∀ (maxW : Nat) (raw : List Nat) (rest : List (List Nat))
       (ws : List (Word × Int)) (count : Nat) (word tok : List Nat)
       (more : List (List Nat)),
      ¬maxW ≤ count → ¬(pyStrip raw = [] || (pyStrip raw).head? = some 35) →
      pySplit ((pyStrip raw).map replSep) = word :: tok :: more →
      ¬pyIsDigit tok = true →
      parseLoop maxW (raw :: rest) ws count =
        parseLoop maxW rest
          (dictInsert ws word (max 0 (min 255 ((1000 + count : Nat) : Int)))) (count + 1)) ∧
    (∀ count : Nat, max 0 (min 255 ((1000 + count : Nat) : Int)) = 255) := by
  refine ⟨?_, ?_, ?_, ?_⟩
  · intro lines maxW res h
    exact parseLoop_range lines maxW [] 0
      (fun p hp => absurd hp (List.not_mem_nil p)) res h
  · intro maxW raw rest ws count word tok more hmc hskip hsplit hdig
    rw [parseLoop_cons, if_neg hmc, if_neg hskip, hsplit]
    simp only [hdig, if_true]
  · intro maxW raw rest ws count word tok more hmc hskip hsplit hdig
    rw [parseLoop_cons, if_neg hmc, if_neg hskip, hsplit]
    simp [hdig]
  · intro count
    have h1 : (255 : Int) ≤ ((1000 + count : Nat) : Int) := by
      push_cast
      omega
    omega

/-- Witness for C6: the line `"cat 300"` (numeric, clamped to 255) and
the line `"dog x"` (non-numeric, synthesized then clamped to 255). -/
theorem claim_C6_witness :
    (∀ p ∈ ([([99, 97, 116], (255 : Int))] : List (Word × Int)),
      0 ≤ p.2 ∧ p.2 ≤ 255) ∧
    parse_words [[99, 97, 116, 32, 51, 48, 48]] 50000 =
      .ok [([99, 97, 116], 255)] ∧
    parse_words [[100, 111, 103, 32, 120]] 50000 =
      .ok [([100, 111, 103], 255)] ∧
    max 0 (min 255 ((1000 + 0 : Nat) : Int)) = 255 := by
  refine ⟨?_, rfl, rfl, (claim_C6.2.2.2 0)⟩
  exact (claim_C6.1 [[99, 97, 116, 32, 51, 48, 48]] 50000 _ rfl)

/-! ## Canonical forms: machinery for determinism (C3) -/

theorem canon_mk (c : Nat) (f : Int) (cs : List TrieNode) :
    canon (.mk c f cs) = .mk c f (sortChildren (canonL cs)) := by
  rw [canon]

theorem canonL_eq_map (ts : List TrieNode) : canonL ts = ts.map canon := by
  induction ts with
  | nil => rw [canonL]; rfl
  | cons t ts ih => rw [canonL, ih]; rfl

theorem canon_char (t : TrieNode) : (canon t).char = t.char := by
  cases t with
  | mk c f cs => rw [canon_mk]; rfl

theorem canon_freq (t : TrieNode) : (canon t).freq = t.freq := by
  cases t with
  | mk c f cs => rw [canon_mk]; rfl

theorem canon_children (t : TrieNode) :
    (canon t).children = sortChildren (t.children.map canon) := by
  cases t with
  | mk c f cs => rw [canon_mk, canonL_eq_map]; rfl

/-- Sorting commutes with `canon` on the elements, since `canon`
preserves the sort key. -/
theorem sortChildren_map_canon (ts : List TrieNode) :
    (sortChildren ts).map canon = sortChildren (ts.map canon) := by
  unfold sortChildren
  exact List.map_insertionSort childLE childLE canon ts
    (fun a _ b _ => by unfold childLE; rw [canon_char, canon_char])

theorem sortChildren_idem (ts : List TrieNode) :
    sortChildren (sortChildren ts) = sortChildren ts :=
  sortChildren_of_sorted (sortChildren_sorted ts)

theorem tsize_le_of_mem {t : TrieNode} {ts : List TrieNode} (h : t ∈ ts) :
    tsize t ≤ tsizeL ts := by
  induction ts with
  | nil => exact absurd h (List.not_mem_nil t)
  | cons t' ts ih =>
    rw [tsizeL_cons]
    rcases List.mem_cons.1 h with rfl | h'
    · omega
    · have := ih h'
      have := tsize_pos t'
      omega

/-- Structural induction over the nested trie type, via the node count. -/
theorem trie_ind (P : TrieNode → Prop)
    (h : ∀ c f cs, (∀ t ∈ cs, P t) → P (.mk c f cs)) : ∀ t, P t := by
  suffices hgen : ∀ (n : Nat) (t : TrieNode), tsize t = n → P t by
    exact fun t => hgen (tsize t) t rfl
  intro n
  induction n using Nat.strong_induction_on with
  | _ n ih =>
    intro t hn
    cases t with
    | mk c f cs =>
      refine h c f cs ?_
      intro t' ht'
      refine ih (tsize t') ?_ t' rfl
      rw [tsize_mk] at hn
      have := tsize_le_of_mem ht'
      omega

theorem canon_idem : ∀ t : TrieNode, canon (canon t) = canon t := by
  refine trie_ind _ ?_
  intro c f cs ih
  rw [canon_mk, canonL_eq_map, canon_mk, canonL_eq_map]
  congr 1
  rw [sortChildren_map_canon, sortChildren_idem]
  congr 1
  rw [List.map_map]
  exact List.map_congr_left (fun x hx => by
    simp only [Function.comp_apply]
    exact ih x hx)

/-- Two sorted lists that are permutations of each other and have
pairwise distinct characters are equal. -/
theorem sorted_nodup_chars_eq :
    ∀ {l₁ l₂ : List TrieNode}, l₁.Perm l₂ → List.Sorted childLE l₁ →
      List.Sorted childLE l₂ → (l₁.map TrieNode.char).Nodup → l₁ = l₂ := by
  intro l₁
  induction l₁ with
  | nil =>
    intro l₂ hp _ _ _
    exact (List.Perm.eq_nil hp.symm).symm
  | cons a l₁ ih =>
    intro l₂ hp hs₁ hs₂ hnd
    cases l₂ with
    | nil => exact absurd hp.eq_nil (by simp)
    | cons b l₂ =>
      have hab : a = b := by
        have hamem : a ∈ b :: l₂ := hp.mem_iff.1 (List.mem_cons_self a l₁)
        have hbmem : b ∈ a :: l₁ := hp.symm.mem_iff.1 (List.mem_cons_self b l₂)
        have hle1 : a.char ≤ b.char := by
          rcases List.mem_cons.1 hbmem with rfl | hb'
          · exact le_rfl
          · exact (List.sorted_cons.1 hs₁).1 b hb'
        have hle2 : b.char ≤ a.char := by
          rcases List.mem_cons.1 hamem with rfl | ha'
          · exact le_rfl
          · exact (List.sorted_cons.1 hs₂).1 a ha'
        have hchar : a.char = b.char := le_antisymm hle1 hle2
        rcases List.mem_cons.1 hbmem with rfl | hb'
        · rfl
        · exfalso
          rw [List.map_cons, List.nodup_cons] at hnd
          exact hnd.1 (hchar ▸ List.mem_map_of_mem TrieNode.char hb')
      subst hab
      have hp' := hp.cons_inv
      rw [List.map_cons, List.nodup_cons] at hnd
      rw [ih hp' (List.sorted_cons.1 hs₁).2 (List.sorted_cons.1 hs₂).2 hnd.2]

/-- `canon` commutes with an in-place dict update, when the updating
function commutes with `canon` on the affected entries. -/
theorem map_canon_updChild {k : TrieNode → TrieNode} {g : TrieNode → TrieNode}
    {d : TrieNode} {ch : Nat} :
    ∀ {ts : List TrieNode}, (∀ x ∈ ts, canon (k x) = g (canon x)) →
      canon (k d) = g (canon d) →
      (updChild k d ch ts).map canon = updChild g (canon d) ch (ts.map canon) := by
  intro ts
  induction ts with
  | nil =>
    intro _ hd
    simp [updChild, hd]
  | cons t ts ih =>
    intro hts hd
    by_cases hc : t.char = ch
    · rw [updChild, if_pos hc, List.map_cons, List.map_cons, updChild,
        if_pos (by rw [canon_char]; exact hc),
        hts t (List.mem_cons_self t ts)]
    · rw [updChild, if_neg hc, List.map_cons, List.map_cons, updChild,
        if_neg (by rw [canon_char]; exact hc),
        ih (fun x hx => hts x (List.mem_cons_of_mem t hx)) hd]

/-- An in-place dict update respects permutations of the dict, provided
the keys are unique. -/
theorem updChild_perm {k : TrieNode → TrieNode} {d : TrieNode} {ch : Nat}
    (hk : ∀ x, (k x).char = x.char) :
    ∀ {ts₁ ts₂ : List TrieNode}, ts₁.Perm ts₂ →
      (ts₁.map TrieNode.char).Nodup →
      (updChild k d ch ts₁).Perm (updChild k d ch ts₂) := by
  intro ts₁ ts₂ hp
  induction hp with
  | nil => intro _; rfl
  | cons x h ih =>
    intro hnd
    rw [List.map_cons, List.nodup_cons] at hnd
    by_cases hc : x.char = ch
    · rw [updChild, if_pos hc, updChild, if_pos hc]
      exact h.cons (k x)
    · rw [updChild, if_neg hc, updChild, if_neg hc]
      exact (ih hnd.2).cons x
  | swap x y l =>
    intro hnd
    by_cases hy : y.char = ch
    · by_cases hx : x.char = ch
      · exfalso
        rw [List.map_cons, List.map_cons, List.nodup_cons] at hnd
        exact hnd.1 (by rw [hy, ← hx]; exact List.mem_cons_self _ _)
      · rw [updChild, if_pos hy, updChild, if_neg hx, updChild, if_pos hy]
        exact List.Perm.swap x (k y) l
    · by_cases hx : x.char = ch
      · rw [updChild, if_neg hy, updChild, if_pos hx, updChild, if_pos hx]
        exact List.Perm.swap (k x) y l
      · rw [updChild, if_neg hy, updChild, if_neg hx, updChild, if_neg hx,
          updChild, if_neg hy]
        exact List.Perm.swap x y (updChild k d ch l)
  | trans h₁ h₂ ih₁ ih₂ =>
    intro hnd
    refine (ih₁ hnd).trans (ih₂ ?_)
    exact ((h₁.map TrieNode.char).nodup_iff).1 hnd

/-- Updates at two distinct keys commute up to permutation (exactly,
except that a double append swaps the two appended nodes). -/
theorem updChild_comm {k₁ k₂ : TrieNode → TrieNode} {d₁ d₂ : TrieNode}
    {ch₁ ch₂ : Nat} (hne : ch₁ ≠ ch₂)
    (hk₁ : ∀ x, (k₁ x).char = x.char) (hk₂ : ∀ x, (k₂ x).char = x.char)
    (hd₁ : d₁.char = ch₁) (hd₂ : d₂.char = ch₂) :
    ∀ ts : List TrieNode,
      (updChild k₂ d₂ ch₂ (updChild k₁ d₁ ch₁ ts)).Perm
        (updChild k₁ d₁ ch₁ (updChild k₂ d₂ ch₂ ts)) := by
  intro ts
  induction ts with
  | nil =>
    have hL : updChild k₂ d₂ ch₂ (updChild k₁ d₁ ch₁ ([] : List TrieNode)) =
        [k₁ d₁, k₂ d₂] := by
      show updChild k₂ d₂ ch₂ [k₁ d₁] = [k₁ d₁, k₂ d₂]
      rw [updChild, if_neg (by rw [hk₁, hd₁]; exact hne)]
      rfl
    have hR : updChild k₁ d₁ ch₁ (updChild k₂ d₂ ch₂ ([] : List TrieNode)) =
        [k₂ d₂, k₁ d₁] := by
      show updChild k₁ d₁ ch₁ [k₂ d₂] = [k₂ d₂, k₁ d₁]
      rw [updChild, if_neg (by rw [hk₂, hd₂]; exact fun h => hne h.symm)]
      rfl
    rw [hL, hR]
    exact List.Perm.swap (k₂ d₂) (k₁ d₁) []
  | cons t ts ih =>
    by_cases h1 : t.char = ch₁
    · rw [updChild, if_pos h1, updChild, if_neg (by rw [hk₁, h1]; exact hne),
        updChild, if_neg (by rw [h1]; exact hne), updChild, if_pos h1]
    · by_cases h2 : t.char = ch₂
      · rw [updChild, if_neg h1, updChild, if_pos h2, updChild, if_pos h2,
          updChild, if_neg (by rw [hk₂, h2]; exact fun h => hne h.symm)]
      · rw [updChild, if_neg h1, updChild, if_neg h2, updChild, if_neg h2,
          updChild, if_neg h1]
        exact ih.cons t

/-- Two updates that agree on all entries (and on the default) give the
same dict. -/
theorem updChild_congr {k k' : TrieNode → TrieNode} {d : TrieNode} {ch : Nat} :
    ∀ {ts : List TrieNode}, (∀ x ∈ ts, k x = k' x) → k d = k' d →
      updChild k d ch ts = updChild k' d ch ts := by
  intro ts
  induction ts with
  | nil => intro _ hd; simp [updChild, hd]
  | cons t ts ih =>
    intro hts hd
    by_cases hc : t.char = ch
    · rw [updChild, if_pos hc, updChild, if_pos hc, hts t (List.mem_cons_self t ts)]
    · rw [updChild, if_neg hc, updChild, if_neg hc,
        ih (fun x hx => hts x (List.mem_cons_of_mem t hx)) hd]

/-- Two successive updates at the same key compose. -/
theorem updChild_updChild {k₁ k₂ : TrieNode → TrieNode} {d : TrieNode} {ch : Nat}
    (hk₁ : ∀ x, (k₁ x).char = x.char) (hd : d.char = ch) :
    ∀ ts : List TrieNode,
      updChild k₂ d ch (updChild k₁ d ch ts) =
        updChild (fun x => k₂ (k₁ x)) d ch ts := by
  intro ts
  induction ts with
  | nil =>
    simp only [updChild]
    rw [if_pos (by rw [hk₁]; exact hd)]
  | cons t ts ih =>
    by_cases hc : t.char = ch
    · rw [updChild, if_pos hc, updChild, if_pos (by rw [hk₁]; exact hc),
        updChild, if_pos hc]
    · rw [updChild, if_neg hc, updChild, if_neg hc, updChild, if_neg hc, ih]

/-- `canon` preserves the unique-keys invariant. -/
theorem canon_WfT : ∀ {t : TrieNode}, WfT t → WfT (canon t) := by
  have hmain : ∀ t : TrieNode, WfT t → WfT (canon t) := by
    refine trie_ind _ ?_
    intro c f cs ih hwf
    cases hwf with
    | intro hnd hcs =>
      rw [canon_mk, canonL_eq_map]
      refine WfT.intro ?_ ?_
      · have hperm : ((sortChildren (cs.map canon)).map TrieNode.char).Perm
            ((cs.map canon).map TrieNode.char) :=
          (sortChildren_perm (cs.map canon)).map TrieNode.char
        refine (hperm.nodup_iff).2 ?_
        rw [List.map_map]
        have : (cs.map (TrieNode.char ∘ canon)) = cs.map TrieNode.char :=
          List.map_congr_left (fun x _ => by
            simp only [Function.comp_apply]; exact canon_char x)
        rw [this]
        simpa using hnd
      · intro z hz
        rw [mem_sortChildren] at hz
        rcases List.mem_map.1 hz with ⟨x, hx, rfl⟩
        exact ih x hx (hcs x hx)
  exact fun {t} => hmain t

theorem chars_map_canon (ts : List TrieNode) :
    (ts.map canon).map TrieNode.char = ts.map TrieNode.char := by
  rw [List.map_map]
  exact List.map_congr_left (fun x _ => by
    simp only [Function.comp_apply]; exact canon_char x)

theorem map_canon_sort_map_canon (ts : List TrieNode) :
    (sortChildren (ts.map canon)).map canon = sortChildren (ts.map canon) := by
  rw [sortChildren_map_canon, List.map_map]
  congr 1
  exact List.map_congr_left (fun x _ => by
    simp only [Function.comp_apply]; exact canon_idem x)

theorem sortChildren_eq_of_perm {A B : List TrieNode} (h : A.Perm B)
    (hnd : (A.map TrieNode.char).Nodup) : sortChildren A = sortChildren B := by
  refine sorted_nodup_chars_eq
    ((sortChildren_perm A).trans (h.trans (sortChildren_perm B).symm))
    (sortChildren_sorted A) (sortChildren_sorted B) ?_
  exact (((sortChildren_perm A).map TrieNode.char).nodup_iff).2 hnd

/-- Key lemma for determinism: inserting into the canonical form and
re-canonicalizing gives the canonical form of the plain insertion. -/
theorem canon_insertPath_canon :
    ∀ (w : Word) (t : TrieNode) (f : Int), WfT t →
      canon (insertPath (canon t) w f) = canon (insertPath t w f) := by
  intro w
  induction w with
  | nil =>
    intro t f hwf
    cases t with
    | mk c f0 cs =>
      rw [canon_mk, canonL_eq_map]
      show canon (TrieNode.mk c f (sortChildren (cs.map canon))) =
        canon (TrieNode.mk c f cs)
      rw [canon_mk, canonL_eq_map, canon_mk, canonL_eq_map]
      congr 1
      rw [map_canon_sort_map_canon, sortChildren_idem]
  | cons ch rest ih =>
    intro t f hwf
    cases t with
    | mk c f0 cs =>
      cases hwf with
      | intro hnd hcs =>
        rw [canon_mk, canonL_eq_map]
        show canon (TrieNode.mk c f0 (updChild (fun sub => insertPath sub rest f)
            (.mk ch 0 []) ch (sortChildren (cs.map canon)))) =
          canon (TrieNode.mk c f0 (updChild (fun sub => insertPath sub rest f)
            (.mk ch 0 []) ch cs))
        rw [canon_mk, canonL_eq_map, canon_mk, canonL_eq_map]
        congr 1
        have hgd : canon (insertPath (.mk ch 0 []) rest f) =
            canon (insertPath (canon (.mk ch 0 [])) rest f) :=
          (ih (.mk ch 0 []) f
            (WfT.intro (by simp) (fun x hx => absurd hx (List.not_mem_nil x)))).symm
        have hmapS : (updChild (fun sub => insertPath sub rest f) (.mk ch 0 []) ch
              (sortChildren (cs.map canon))).map canon =
            updChild (fun y => canon (insertPath y rest f)) (canon (.mk ch 0 [])) ch
              ((sortChildren (cs.map canon)).map canon) := by
          refine map_canon_updChild ?_ hgd
          intro x hx
          rw [mem_sortChildren] at hx
          rcases List.mem_map.1 hx with ⟨y, _, rfl⟩
          show canon (insertPath (canon y) rest f) =
            canon (insertPath (canon (canon y)) rest f)
          rw [canon_idem]
        have hmapcs : (updChild (fun sub => insertPath sub rest f) (.mk ch 0 []) ch
              cs).map canon =
            updChild (fun y => canon (insertPath y rest f)) (canon (.mk ch 0 [])) ch
              (cs.map canon) := by
          refine map_canon_updChild ?_ hgd
          intro x hx
          exact (ih x f (hcs x hx)).symm
        rw [hmapS, hmapcs, map_canon_sort_map_canon]
        refine sortChildren_eq_of_perm ?_ ?_
        · refine updChild_perm ?_ (sortChildren_perm (cs.map canon)) ?_
          · intro x
            show (canon (insertPath x rest f)).char = x.char
            rw [canon_char, insertPath_char]
          · refine ((((sortChildren_perm (cs.map canon)).map TrieNode.char)).nodup_iff).2 ?_
            rw [chars_map_canon]
            exact hnd
        · refine updChild_chars_nodup ?_ (by simp [canon_char]) ?_
          · intro x
            show (canon (insertPath x rest f)).char = x.char
            rw [canon_char, insertPath_char]
          · refine ((((sortChildren_perm (cs.map canon)).map TrieNode.char)).nodup_iff).2 ?_
            rw [chars_map_canon]
            exact hnd

theorem insertPath_nil_comm (t : TrieNode) (f₁ f₂ : Int) (ch : Nat) (r : Word) :
    insertPath (insertPath t [] f₁) (ch :: r) f₂ =
      insertPath (insertPath t (ch :: r) f₂) [] f₁ := by
  cases t; rfl

theorem canon_ins_ins_canon (r₁ r₂ : Word) (f₁ f₂ : Int) (x : TrieNode)
    (hwf : WfT x) :
    canon (insertPath (insertPath x r₁ f₁) r₂ f₂) =
      canon (insertPath (insertPath (canon x) r₁ f₁) r₂ f₂) := by
  calc canon (insertPath (insertPath x r₁ f₁) r₂ f₂)
      = canon (insertPath (canon (insertPath x r₁ f₁)) r₂ f₂) :=
        (canon_insertPath_canon r₂ _ f₂ (insertPath_WfT hwf)).symm
    _ = canon (insertPath (canon (insertPath (canon x) r₁ f₁)) r₂ f₂) := by
        rw [canon_insertPath_canon r₁ x f₁ hwf]
    _ = canon (insertPath (insertPath (canon x) r₁ f₁) r₂ f₂) :=
        canon_insertPath_canon r₂ _ f₂ (insertPath_WfT (canon_WfT hwf))

/-- Insertions of two distinct words commute, up to canonical form. -/
theorem canon_insertPath_comm :
    ∀ (w₁ w₂ : Word) (t : TrieNode) (f₁ f₂ : Int), WfT t → w₁ ≠ w₂ →
      canon (insertPath (insertPath t w₁ f₁) w₂ f₂) =
        canon (insertPath (insertPath t w₂ f₂) w₁ f₁) := by
  intro w₁
  induction w₁ with
  | nil =>
    intro w₂ t f₁ f₂ hwf hne
    cases w₂ with
    | nil => exact absurd rfl hne
    | cons c r => exact congrArg canon (insertPath_nil_comm t f₁ f₂ c r)
  | cons c₁ r₁ ih =>
    intro w₂ t f₁ f₂ hwf hne
    cases w₂ with
    | nil => exact congrArg canon (insertPath_nil_comm t f₂ f₁ c₁ r₁).symm
    | cons c₂ r₂ =>
      cases t with
      | mk c0 f0 cs =>
        cases hwf with
        | intro hnd hcs =>
          by_cases hcc : c₁ = c₂
          · subst hcc
            have hr : r₁ ≠ r₂ := fun h => hne (by rw [h])
            show canon (TrieNode.mk c0 f0
                (updChild (fun sub => insertPath sub r₂ f₂) (.mk c₁ 0 []) c₁
                  (updChild (fun sub => insertPath sub r₁ f₁) (.mk c₁ 0 []) c₁ cs))) =
              canon (TrieNode.mk c0 f0
                (updChild (fun sub => insertPath sub r₁ f₁) (.mk c₁ 0 []) c₁
                  (updChild (fun sub => insertPath sub r₂ f₂) (.mk c₁ 0 []) c₁ cs)))
            rw [updChild_updChild (fun x => insertPath_char x r₁ f₁)
                (show (TrieNode.mk c₁ 0 []).char = c₁ by rfl),
              updChild_updChild (fun x => insertPath_char x r₂ f₂)
                (show (TrieNode.mk c₁ 0 []).char = c₁ by rfl)]
            rw [canon_mk, canonL_eq_map, canon_mk, canonL_eq_map]
            congr 1
            have hmap₁ : (updChild
                  (fun x => insertPath (insertPath x r₁ f₁) r₂ f₂) (.mk c₁ 0 []) c₁
                  cs).map canon =
                updChild (fun y => canon (insertPath (insertPath y r₁ f₁) r₂ f₂))
                  (canon (.mk c₁ 0 [])) c₁ (cs.map canon) := by
              refine map_canon_updChild ?_ ?_
              · intro x hx
                exact canon_ins_ins_canon r₁ r₂ f₁ f₂ x (hcs x hx)
              · exact canon_ins_ins_canon r₁ r₂ f₁ f₂ _
                  (WfT.intro (by simp) (fun x hx => absurd hx (List.not_mem_nil x)))
            have hmap₂ : (updChild
                  (fun x => insertPath (insertPath x r₂ f₂) r₁ f₁) (.mk c₁ 0 []) c₁
                  cs).map canon =
                updChild (fun y => canon (insertPath (insertPath y r₂ f₂) r₁ f₁))
                  (canon (.mk c₁ 0 [])) c₁ (cs.map canon) := by
              refine map_canon_updChild ?_ ?_
              · intro x hx
                exact canon_ins_ins_canon r₂ r₁ f₂ f₁ x (hcs x hx)
              · exact canon_ins_ins_canon r₂ r₁ f₂ f₁ _
                  (WfT.intro (by simp) (fun x hx => absurd hx (List.not_mem_nil x)))
            rw [hmap₁, hmap₂]
            congr 1
            refine updChild_congr ?_ ?_
            · intro z hz
              rcases List.mem_map.1 hz with ⟨x, hx, rfl⟩
              exact ih r₂ (canon x) f₁ f₂ (canon_WfT (hcs x hx)) hr
            · exact ih r₂ (canon (.mk c₁ 0 [])) f₁ f₂
                (canon_WfT (WfT.intro (by simp)
                  (fun x hx => absurd hx (List.not_mem_nil x)))) hr
          · show canon (TrieNode.mk c0 f0
                (updChild (fun sub => insertPath sub r₂ f₂) (.mk c₂ 0 []) c₂
                  (updChild (fun sub => insertPath sub r₁ f₁) (.mk c₁ 0 []) c₁ cs))) =
              canon (TrieNode.mk c0 f0
                (updChild (fun sub => insertPath sub r₁ f₁) (.mk c₁ 0 []) c₁
                  (updChild (fun sub => insertPath sub r₂ f₂) (.mk c₂ 0 []) c₂ cs)))
            rw [canon_mk, canonL_eq_map, canon_mk, canonL_eq_map]
            congr 1
            refine sortChildren_eq_of_perm ?_ ?_
            · refine List.Perm.map canon ?_
              exact updChild_comm hcc (fun x => insertPath_char x r₁ f₁)
                (fun x => insertPath_char x r₂ f₂)
                (show (TrieNode.mk c₁ 0 []).char = c₁ by rfl)
                (show (TrieNode.mk c₂ 0 []).char = c₂ by rfl) cs
            · rw [chars_map_canon]
              refine updChild_chars_nodup (fun x => insertPath_char x r₂ f₂) rfl ?_
              exact updChild_chars_nodup (fun x => insertPath_char x r₁ f₁) rfl hnd

theorem nodup_keys_inj :
    ∀ {l : List (Word × Int)}, (l.map Prod.fst).Nodup →
      ∀ {x y : Word × Int}, x ∈ l → y ∈ l → x.1 = y.1 → x = y := by
  intro l
  induction l with
  | nil => intro _ x y hx; exact absurd hx (List.not_mem_nil x)
  | cons p l ih =>
    intro hnd x y hx hy hk
    rw [List.map_cons, List.nodup_cons] at hnd
    rcases List.mem_cons.1 hx with rfl | hx' <;> rcases List.mem_cons.1 hy with rfl | hy'
    · rfl
    · exact absurd (hk ▸ List.mem_map_of_mem Prod.fst hy') hnd.1
    · exact absurd (hk ▸ List.mem_map_of_mem Prod.fst hx') hnd.1
    · exact ih hnd.2 hx' hy' hk

theorem canon_foldl :
    ∀ (l : List (Word × Int)) (t : TrieNode), WfT t →
      canon (l.foldl (fun a p => insertPath a p.1 p.2) t) =
        l.foldl (fun a p => canon (insertPath a p.1 p.2)) (canon t) := by
  intro l
  induction l with
  | nil => intro t _; rfl
  | cons p l ih =>
    intro t hwf
    rw [List.foldl_cons, List.foldl_cons,
      ih _ (insertPath_WfT hwf), canon_insertPath_canon p.1 t p.2 hwf]

/-- Folding a pairwise-commuting (on an invariant-preserving state
class) operation over a list is invariant under permutation. -/
theorem foldl_perm_eq {α β : Type} {g : α → β → α} {P : α → Prop}
    (hP : ∀ a p, P a → P (g a p)) :
    ∀ {l₁ l₂ : List β}, l₁.Perm l₂ →
      ∀ a, P a →
      (∀ x ∈ l₁, ∀ y ∈ l₁, ∀ b, P b → g (g b x) y = g (g b y) x) →
      l₁.foldl g a = l₂.foldl g a := by
  intro l₁ l₂ hp
  induction hp with
  | nil => intro a _ _; rfl
  | cons x h ih =>
    intro a ha hcomm
    rw [List.foldl_cons, List.foldl_cons]
    exact ih (g a x) (hP a x ha)
      (fun u hu v hv b hb =>
        hcomm u (List.mem_cons_of_mem x hu) v (List.mem_cons_of_mem x hv) b hb)
  | swap x y l =>
    intro a ha hcomm
    rw [List.foldl_cons, List.foldl_cons, List.foldl_cons, List.foldl_cons]
    rw [hcomm y (List.mem_cons_self y _) x
      (List.mem_cons_of_mem y (List.mem_cons_self x l)) a ha]
  | trans h₁ h₂ ih₁ ih₂ =>
    intro a ha hcomm
    rw [ih₁ a ha hcomm]
    refine ih₂ a ha ?_
    intro u hu v hv b hb
    exact hcomm u (h₁.mem_iff.2 hu) v (h₁.mem_iff.2 hv) b hb

/-- The canonical trie built from a word table depends only on the
underlying mapping, not on the insertion order. -/
theorem canon_buildRootNode_perm {l₁ l₂ : WordTable}
    (hnd : (l₁.map Prod.fst).Nodup) (hp : l₁.Perm l₂) :
    canon (buildRootNode l₁) = canon (buildRootNode l₂) := by
  have hwf0 : WfT (.mk 94 0 []) :=
    WfT.intro (by simp) (fun x hx => absurd hx (List.not_mem_nil x))
  unfold buildRootNode
  rw [canon_foldl _ _ hwf0, canon_foldl _ _ hwf0]
  refine foldl_perm_eq (P := fun a => WfT a ∧ canon a = a) ?_ hp (canon (.mk 94 0 []))
    ⟨canon_WfT hwf0, canon_idem _⟩ ?_
  · intro a p ha
    exact ⟨canon_WfT (insertPath_WfT ha.1), canon_idem _⟩
  · intro x hx y hy b hb
    by_cases hxy : x = y
    · rw [hxy]
    · have hkey : x.1 ≠ y.1 := fun hk => hxy (nodup_keys_inj hnd hx hy hk)
      show canon (insertPath (canon (insertPath b x.1 x.2)) y.1 y.2) =
        canon (insertPath (canon (insertPath b y.1 y.2)) x.1 x.2)
      rw [canon_insertPath_canon y.1 _ y.2 (insertPath_WfT hb.1),
        canon_insertPath_canon x.1 _ x.2 (insertPath_WfT hb.1)]
      exact canon_insertPath_comm x.1 y.1 b x.2 y.2 hb.1 hkey

theorem mkEntries_map_canon :
    ∀ (ts : List TrieNode) (i : Nat),
      mkEntries (ts.map canon) i =
        (mkEntries ts i).map (fun e => (canon e.1, e.2)) := by
  intro ts
  induction ts with
  | nil => intro i; rfl
  | cons t ts ih =>
    cases ts with
    | nil => intro i; rfl
    | cons t' ts' =>
      intro i
      show mkEntries (canon t :: canon t' :: ts'.map canon) i = _
      rw [mkEntries]
      rw [show (canon t' :: ts'.map canon) = (t' :: ts').map canon from rfl, ih]
      rfl

/-- The record stream of the breadth-first encoder depends only on the
canonical forms of the queued tries. -/
theorem bfsEnc_canonQ :
    ∀ (fuel : Nat) (q : List (TrieNode × Option Int)) (d enq : Nat),
      (bfsEnc fuel (q.map (fun e => (canon e.1, e.2))) d enq).map
          (List.map Prod.snd) =
        (bfsEnc fuel q d enq).map (List.map Prod.snd) := by
  intro fuel
  induction fuel with
  | zero =>
    intro q d enq
    cases q with
    | nil => rfl
    | cons e rest => rfl
  | succ fuel ih =>
    intro q d enq
    cases q with
    | nil => rfl
    | cons e rest =>
      obtain ⟨t, sib⟩ := e
      rw [List.map_cons]
      show (bfsEnc (fuel + 1) ((canon t, sib) ::
          rest.map (fun e => (canon e.1, e.2))) d enq).map (List.map Prod.snd) = _
      rw [bfsEnc_cons, bfsEnc_cons]
      by_cases h1 : MAX_OFFSET < NODE_SIZE * d
      · rw [if_pos h1, if_pos h1]
      · rw [if_neg h1, if_neg h1]
        have hch : sortChildren (canon t).children =
            (sortChildren t.children).map canon := by
          rw [canon_children, sortChildren_idem, sortChildren_map_canon]
        rw [hch, List.length_map, mkEntries_map_canon, ← List.map_append]
        have hih := ih (rest ++ mkEntries (sortChildren t.children) enq) (d + 1)
          (enq + (sortChildren t.children).length)
        cases hA : bfsEnc fuel ((rest ++ mkEntries (sortChildren t.children) enq).map
            (fun e => (canon e.1, e.2))) (d + 1)
            (enq + (sortChildren t.children).length) with
        | error eA =>
          cases hB : bfsEnc fuel (rest ++ mkEntries (sortChildren t.children) enq)
              (d + 1) (enq + (sortChildren t.children).length) with
          | error eB =>
            rw [hA, hB] at hih
            simp only [Except.map] at hih
            simp only [Except.map]
            exact hih
          | ok outB =>
            rw [hA, hB] at hih
            simp only [Except.map] at hih
            exact absurd hih (by simp)
        | ok outA =>
          cases hB : bfsEnc fuel (rest ++ mkEntries (sortChildren t.children) enq)
              (d + 1) (enq + (sortChildren t.children).length) with
          | error eB =>
            rw [hA, hB] at hih
            simp only [Except.map] at hih
            exact absurd hih (by simp)
          | ok outB =>
            rw [hA, hB] at hih
            simp only [Except.map, Except.ok.injEq] at hih
            simp only [Except.map, Except.ok.injEq]
            rw [List.map_cons, List.map_cons, hih]
            congr 1
            simp only
            rw [canon_char, canon_freq]

/-- If two tables give the same record stream out of `build_trie`, the
whole compilation agrees. -/
theorem compile_eq_of_recs {l₁ l₂ : WordTable}
    (h : (build_trie l₁).map (List.map Prod.snd) =
      (build_trie l₂).map (List.map Prod.snd)) :
    compileTable l₁ = compileTable l₂ := by
  unfold compileTable
  cases h₁ : build_trie l₁ with
  | error e₁ =>
    cases h₂ : build_trie l₂ with
    | error e₂ =>
      rw [h₁, h₂] at h
      simp only [Except.map, Except.error.injEq] at h
      rw [h]
    | ok out₂ =>
      rw [h₁, h₂] at h
      simp only [Except.map] at h
      exact absurd h (by simp)
  | ok out₁ =>
    cases h₂ : build_trie l₂ with
    | error e₂ =>
      rw [h₁, h₂] at h
      simp only [Except.map] at h
      exact absurd h (by simp)
    | ok out₂ =>
      rw [h₁, h₂] at h
      simp only [Except.map, Except.ok.injEq] at h
      show (match write_bin (List.map Prod.snd out₁) [] with
        | Except.error (e, _) => Except.error e
        | Except.ok bs => Except.ok bs) =
        (match write_bin (List.map Prod.snd out₂) [] with
        | Except.error (e, _) => Except.error e
        | Except.ok bs => Except.ok bs)
      rw [h]

/-- Claim C3: compilation is deterministic — for every word table
(unique keys, as a Python dict has), compiling the same mapping gives
byte-identical output regardless of the order in which the mapping was
populated, because sibling ordering is a pure function of the character
code. -/
theorem claim_C3 (l₁ l₂ : WordTable) (hnd : (l₁.map Prod.fst).Nodup)
    (hp : l₁.Perm l₂) : compileTable l₁ = compileTable l₂ := by
  refine compile_eq_of_recs ?_
  have hfuel : wordFuel l₁ = wordFuel l₂ := by
    unfold wordFuel
    rw [(hp.map (fun p => p.1.length)).sum_eq]
  rw [build_trie_eq, build_trie_eq, hfuel]
  have h₁ := bfsEnc_canonQ (wordFuel l₂) [((buildRootNode l₁), (none : Option Int))] 0 1
  have h₂ := bfsEnc_canonQ (wordFuel l₂) [((buildRootNode l₂), (none : Option Int))] 0 1
  simp only [List.map_cons, List.map_nil] at h₁ h₂
  rw [← h₁, ← h₂, canon_buildRootNode_perm hnd hp]

/-- Witness for C3: the worked example table in two insertion orders. -/
theorem claim_C3_witness :
    (cat3.map Prod.fst).Nodup ∧ cat3.Perm cat3rev ∧
      compileTable cat3 = compileTable cat3rev :=
  ⟨by decide, by decide, claim_C3 cat3 cat3rev (by decide) (by decide)⟩
